import Mathlib

set_option maxHeartbeats 1000000
set_option maxRecDepth 4000

/-!
Shallow embedding of the api_auto_test test execution engine.

The embedded code is pkg/executor/executor.go together with the data model
of pkg/config/types.go and the result types of pkg/client/http_client.go and
pkg/validator/validator.go.  Go dynamic JSON-like values (the Go catch-all
interface type) are modelled by the inductive `GoValue`; Go float64 values
are modelled by exact rationals (the operations the engine performs on them,
truncation to an integer and the integrality test, are exact on every finite
float64); Go maps are modelled by association lists; the impure collaborators
- the HTTP client, the response validator and the random-value generator -
are oracle parameters, since the engine treats them as black boxes.
Time-valued fields (Duration, ExecutedAt, StartTime, EndTime) are dropped:
no claim mentions them and wall-clock time is not statable in the embedding.
-/

namespace ApiAutoTest

mutual

/-- Model of a Go dynamic value as produced by JSON or YAML decoding and by
the executor's own conversions.  Go distinguishes int, int64 and float64 as
dynamic types, so the model does as well; `vNull` models the nil interface
(JSON null decodes to it).  Arrays and objects carry their own spine types
so that the recursions over values are mutual structural recursions. -/
inductive GoValue where
  | vNull
  | vBool (b : Bool)
  | vInt (n : Int)
  | vInt64 (n : Int)
  | vFloat (q : ℚ)
  | vStr (s : String)
  | vArr (elems : GoValues)
  | vMap (fields : GoFields)
  deriving Inhabited

/-- A decoded JSON array: a list of dynamic values. -/
inductive GoValues where
  | nil
  | cons (v : GoValue) (tl : GoValues)
  deriving Inhabited

/-- A decoded JSON object or Go map: string keys with dynamic values, in
insertion order. -/
inductive GoFields where
  | nil
  | cons (k : String) (v : GoValue) (tl : GoFields)
  deriving Inhabited

end

/-- Build a value array from a plain list (fixture helper). -/
def GoValues.ofList : List GoValue → GoValues
  | [] => .nil
  | v :: tl => .cons v (ofList tl)

/-- Build a field map from a plain association list (fixture helper). -/
def GoFields.ofList : List (String × GoValue) → GoFields
  | [] => .nil
  | (k, v) :: tl => .cons k v (ofList tl)

/-- Index into a decoded array (fails out of range, as a Go slice index test). -/
def GoValues.get? : GoValues → Nat → Option GoValue
  | .nil, _ => none
  | .cons v _, 0 => some v
  | .cons _ tl, n + 1 => tl.get? n

/-- Go map indexing on the association representation: earliest entry wins
(a real map has distinct keys). -/
def GoFields.lookup : GoFields → String → Option GoValue
  | .nil, _ => none
  | .cons k v tl, key => if k == key then some v else tl.lookup key

/-- Go map update of an existing entry: rewrite the value stored under the
key in place, leaving everything else untouched. -/
def GoFields.modifyVal (key : String) (f : GoValue → GoValue) : GoFields → GoFields
  | .nil => .nil
  | .cons k v tl =>
    if k == key then .cons k (f v) (modifyVal key f tl)
    else .cons k v (modifyVal key f tl)

/-- Go truncation of a float64 toward zero, as performed by a cast to int or
int64; exact on rationals via integer T-division of numerator by denominator. -/
def truncFloat (q : ℚ) : Int := q.num.tdiv (q.den : Int)

/-- The Go test float64compare f == float64(int64(f)): f is a whole number.
On the rational model this is exactly denominator one. -/
def isWholeFloat (q : ℚ) : Bool := q.den == 1

end ApiAutoTest

namespace ApiAutoTest

/-! ### Go standard-library string operations used by the executor -/

/-- Character class used by strings.TrimSpace (Unicode white space). -/
def isSpaceChar (c : Char) : Bool := c.isWhitespace

/-- Model of strings.TrimSpace on the character-list representation. -/
def goTrimSpaceList (cs : List Char) : List Char :=
  ((cs.dropWhile isSpaceChar).reverse.dropWhile isSpaceChar).reverse

/-- Model of strings.TrimSpace. -/
def goTrimSpace (s : String) : String := String.mk (goTrimSpaceList s.toList)

/-- The cutset used by strings.Trim(match, braces) in replaceVariables. -/
def isBraceChar (c : Char) : Bool := c = '\x7b' || c = '\x7d'

/-- Model of strings.Trim with the brace cutset. -/
def goTrimBraces (s : String) : String :=
  String.mk (((s.toList.dropWhile isBraceChar).reverse.dropWhile isBraceChar).reverse)

/-- Decimal digits to a natural number (helper for strconv.Atoi). -/
def digitsToNat (cs : List Char) : Nat :=
  cs.foldl (fun acc c => acc * 10 + (c.toNat - '0'.toNat)) 0

/-- Model of strconv.Atoi: optional sign followed by one or more decimal
digits.  (Range errors at 2^63 are ignored: the engine only receives short
numeric strings.) -/
def goAtoi (s : String) : Option Int :=
  match s.toList with
  | [] => none
  | '+' :: rest =>
      if rest ≠ [] && rest.all Char.isDigit then some (digitsToNat rest) else none
  | '-' :: rest =>
      if rest ≠ [] && rest.all Char.isDigit then some (-(digitsToNat rest : Int)) else none
  | cs => if cs.all Char.isDigit then some (digitsToNat cs : Int) else none

/-- Model of strconv.ParseBool: the exact accepted literals. -/
def goParseBool (s : String) : Option Bool :=
  if s == "1" || s == "t" || s == "T" || s == "TRUE" || s == "true" || s == "True" then
    some true
  else if s == "0" || s == "f" || s == "F" || s == "FALSE" || s == "false" || s == "False" then
    some false
  else none

/-- Model of strconv.ParseFloat for the plain decimal forms the engine can
meet (optional sign, digits, optional fractional digits).  Exotic inputs Go
would also accept (exponents, hex floats, inf) do not occur in test configs
and are rejected by the model. -/
def goParseFloat (s : String) : Option ℚ :=
  let core : List Char → Option ℚ := fun cs =>
    let intPart := cs.takeWhile Char.isDigit
    match cs.drop intPart.length with
    | [] => if intPart ≠ [] then some ((digitsToNat intPart : Int) : ℚ) else none
    | '.' :: frac =>
        if intPart ≠ [] && frac ≠ [] && frac.all Char.isDigit then
          some (((digitsToNat intPart : Int) : ℚ) +
            ((digitsToNat frac : Int) : ℚ) / ((10 ^ frac.length : Nat) : ℚ))
        else none
    | _ => none
  match s.toList with
  | '+' :: rest => core rest
  | '-' :: rest => (core rest).map Neg.neg
  | cs => core cs

end ApiAutoTest

namespace ApiAutoTest

mutual

/-- Model of the Go default formatting verb applied to a dynamic value, as
used by fmt.Sprintf in replaceInString and in the string coercion.  Composite
values are rendered structurally (Go additionally sorts map keys when
printing; the engine never formats a composite value in any claim, and the
association representation keeps insertion order). -/
def goFormat : GoValue → String
  | .vNull => "<nil>"
  | .vBool b => if b then "true" else "false"
  | .vInt n => toString n
  | .vInt64 n => toString n
  | .vFloat q => if isWholeFloat q then toString q.num else toString q
  | .vStr s => s
  | .vArr elems => "[" ++ String.intercalate " " (goFormatList elems) ++ "]"
  | .vMap fields => "map[" ++ String.intercalate " " (goFormatFields fields) ++ "]"

def goFormatList : GoValues → List String
  | .nil => []
  | .cons v tl => goFormat v :: goFormatList tl

def goFormatFields : GoFields → List String
  | .nil => []
  | .cons k v tl => (k ++ ":" ++ goFormat v) :: goFormatFields tl

end

/-! ### The placeholder scanner

Model of the regular expression used by replaceVariables: two opening braces,
one or more characters other than a closing brace (captured), two closing
braces.  `scan` decomposes a string into literal characters and placeholder
matches exactly as the leftmost-first non-overlapping matching of that
pattern does; regexp.FindAllStringSubmatch and regexp.ReplaceAllStringFunc
are both derived from it. -/

/-- Try to complete a placeholder match directly after an opening brace pair:
greedily take the non-brace-closing characters, then require two closing
braces.  Returns the captured inner text and the rest of the input. -/
def phSplit (rest : List Char) : Option (List Char × List Char) :=
  let inner := rest.takeWhile (fun c => c != '\x7d')
  match rest.drop inner.length with
  | '\x7d' :: '\x7d' :: rest2 => if inner.isEmpty then none else some (inner, rest2)
  | _ => none

theorem drop_len_takeWhile (p : Char → Bool) (l : List Char) :
    l.drop (l.takeWhile p).length = l.dropWhile p := by
  induction l with
  | nil => simp
  | cons a t ih =>
    by_cases h : p a
    · simp [List.takeWhile_cons, List.dropWhile_cons, h, ih]
    · simp [List.takeWhile_cons, List.dropWhile_cons, h]

theorem phSplit_eq_some {rest inner rest2 : List Char}
    (h : phSplit rest = some (inner, rest2)) :
    rest = inner ++ '\x7d' :: '\x7d' :: rest2 ∧ inner ≠ [] ∧
      inner = rest.takeWhile (fun c => c != '\x7d') := by
  simp only [phSplit] at h
  split at h
  · next heq =>
    split at h
    · exact absurd h (by simp)
    · next hne =>
      cases h
      refine ⟨?_, by simpa [List.isEmpty_iff] using hne, rfl⟩
      conv_lhs => rw [← List.takeWhile_append_dropWhile (p := fun c => c != '\x7d') (l := rest)]
      rw [drop_len_takeWhile] at heq
      rw [heq]
  · exact absurd h (by simp)

theorem phSplit_length {rest inner rest2 : List Char}
    (h : phSplit rest = some (inner, rest2)) : rest2.length < rest.length := by
  obtain ⟨h1, h2, _⟩ := phSplit_eq_some h
  subst h1
  simp
  omega

/-- One segment of a scanned string: a literal character or a placeholder
match with the given captured inner text. -/
inductive Seg where
  | lit (c : Char)
  | ph (inner : List Char)
  deriving Repr

/-- The full text covered by a segment. -/
def segText : Seg → List Char
  | .lit c => [c]
  | .ph inner => '\x7b' :: '\x7b' :: (inner ++ ['\x7d', '\x7d'])

/-- Leftmost-first non-overlapping scan for the placeholder pattern, with
fuel: every step consumes at least one input character, so fuel exceeding
the input length is never exhausted. -/
def scanF : Nat → List Char → List Seg
  | 0, _ => []
  | fuel + 1, cs =>
    match cs with
    | [] => []
    | c :: cs1 =>
      if c = '\x7b' then
        match cs1 with
        | c2 :: cs2 =>
          if c2 = '\x7b' then
            match phSplit cs2 with
            | some (inner, rest2) => .ph inner :: scanF fuel rest2
            | none => .lit '\x7b' :: scanF fuel ('\x7b' :: cs2)
          else .lit c :: scanF fuel cs1
        | [] => .lit c :: scanF fuel cs1
      else .lit c :: scanF fuel cs1

/-- The scan of a whole string. -/
def scan (cs : List Char) : List Seg := scanF (cs.length + 1) cs

theorem scanF_flatten :
    ∀ (fuel : Nat) (cs : List Char), cs.length < fuel →
      (scanF fuel cs).flatMap segText = cs := by
  intro fuel
  induction fuel with
  | zero => intro cs h; omega
  | succ fuel ih =>
    intro cs h
    match cs with
    | [] => rfl
    | c :: cs1 =>
      rw [scanF.eq_def]
      simp only []
      by_cases hc : c = '\x7b'
      · rw [if_pos hc]
        match cs1 with
        | [] =>
          have h1 : ([] : List Char).length < fuel := by simp at h ⊢; omega
          simp [segText, ih [] h1]
        | c2 :: cs2 =>
          dsimp only
          by_cases hc2 : c2 = '\x7b'
          · rw [if_pos hc2]
            match hps : phSplit cs2 with
            | some (inner, rest2) =>
              obtain ⟨he, hne, _⟩ := phSplit_eq_some hps
              have hl := phSplit_length hps
              have h2 : rest2.length < fuel := by simp at h; omega
              simp only [List.flatMap_cons, segText, ih rest2 h2]
              rw [he, hc, hc2]
              simp
            | none =>
              have h2 : ('\x7b' :: cs2).length < fuel := by simp at h ⊢; omega
              simp only [List.flatMap_cons, segText, ih _ h2]
              rw [hc, hc2]
              rfl
          · rw [if_neg hc2]
            have h2 : (c2 :: cs2).length < fuel := by simp at h ⊢; omega
            simp [segText, ih _ h2]
      · rw [if_neg hc]
        have h2 : cs1.length < fuel := by simp at h; omega
        simp [segText, ih _ h2]

/-- Scanning decomposes the input: the segment texts concatenate back to it. -/
theorem scan_flatten (cs : List Char) : (scan cs).flatMap segText = cs :=
  scanF_flatten (cs.length + 1) cs (by omega)

/-! ### Data model (pkg/config/types.go, pkg/client, pkg/validator)

Certificate and timeout configuration is consumed only by the HTTP client
(an external collaborator here) and is omitted; likewise the raw response
body bytes and headers, which the executor never reads. -/

/-- config.RetryPolicy.  Both fields are Go integers (the interval is a
time.Duration in nanoseconds, used only for sleeping between attempts). -/
structure RetryPolicy where
  maxRetries : Int
  interval : Int
  deriving Inhabited, Repr

/-- config.RequestConfig.  Go maps become association lists; the dynamic
body becomes a GoValue, with vNull standing for the nil interface. -/
structure RequestConfig where
  method : String
  path : String
  headers : List (String × String)
  query : GoFields
  body : GoValue
  bodySchema : List (String × String)
  deriving Inhabited

/-- config.Validator (an entry of the response expectation, consumed only by
the external validator). -/
structure ValidatorConfig where
  type : String
  field : String
  value : GoValue
  expect : GoValue
  deriving Inhabited

/-- config.ResponseExpectation (consumed by the external validator). -/
structure ResponseExpectation where
  statusCode : Int
  headers : List (String × String)
  body : GoFields
  bodyContains : List String
  bodyExcludes : List String
  jsonSchema : String
  validators : List ValidatorConfig
  deriving Inhabited

/-- config.APITest. -/
structure APITest where
  name : String
  description : String
  version : String
  versions : List String
  weight : Int
  dependsOn : String
  request : RequestConfig
  response : ResponseExpectation
  retryPolicy : RetryPolicy
  deriving Inhabited

/-- config.TestConfig (the fields the executor reads). -/
structure TestConfig where
  baseURL : String
  version : String
  headers : List (String × String)
  apis : List APITest
  deriving Inhabited

/-- client.Response: the fields the executor reads.  BodyJSON is a Go map
that is nil when the response was not JSON; the nil map and the empty map
behave identically under lookup, so both are the empty list. -/
structure Response where
  statusCode : Int
  bodyJSON : GoFields
  deriving Inhabited

/-- validator.ValidationResult: the executor only reads the Passed flag; the
error and warning lists are carried opaquely. -/
structure ValidationResult where
  passed : Bool
  errors : List String
  warnings : List String
  deriving Inhabited, Repr

/-- executor.TestResult.  The two time fields (Duration, ExecutedAt) are
dropped; Error keeps only the message text. -/
structure TestResult where
  name : String
  description : String
  version : String
  passed : Bool
  skipped : Bool
  skipReason : String
  statusCode : Int
  request : RequestConfig
  response : Option Response
  validation : Option ValidationResult
  error : Option String
  retryCount : Nat
  deriving Inhabited

/-- executor.TestReport (time fields dropped). -/
structure TestReport where
  totalTests : Nat
  passedTests : Nat
  failedTests : Nat
  skippedTests : Nat
  results : List TestResult
  version : String
  baseURL : String
  deriving Inhabited

/-- The executor's results map (the Result Store), as an association list in
which the most recent write for a name shadows older entries. -/
abbrev Store := List (String × TestResult)

/-- executor.getResult: read a stored result by test name. -/
def getResult (results : Store) (name : String) : Option TestResult :=
  (results.find? (fun p => p.1 == name)).map (fun p => p.2)

/-- executor.storeResult: map assignment, modelled by a shadowing cons. -/
def storeResult (results : Store) (r : TestResult) : Store :=
  (r.name, r) :: results

/-! ### Field path evaluator (executor.parseFieldPath, executor.extractFieldValue) -/

/-- executor.fieldPathPart.  The source only accepts a bracketed index when
strconv.Atoi succeeds with a nonnegative value, so the index is a Nat. -/
structure FieldPathPart where
  name : String
  isArr : Bool
  index : Nat
  deriving Inhabited, Repr

/-- The mutable locals of the parseFieldPath loop. -/
structure FPState where
  parts : List FieldPathPart
  currentPart : List Char
  inBracket : Bool
  bracketContent : List Char
  deriving Inhabited, Repr

/-- One iteration of the parseFieldPath character loop (the switch over the
current character, followed by the last-character flush). -/
def parseFieldPathStep (st : FPState) (ch : Char) (isLast : Bool) : FPState :=
  let st1 :=
    if ch = '.' then
      if st.inBracket then { st with bracketContent := st.bracketContent ++ [ch] }
      else if st.currentPart.length > 0 then
        let newParts := st.parts ++ [⟨String.mk st.currentPart, false, 0⟩]
        { st with parts := newParts, currentPart := [] }
      else st
    else if ch = '[' then
      { st with inBracket := true }
    else if ch = ']' then
      if st.inBracket then
        let st2 : FPState := { st with inBracket := false }
        match goAtoi (String.mk st.bracketContent) with
        | some idx =>
            if 0 ≤ idx then
              let newParts := st2.parts ++ [⟨String.mk st2.currentPart, true, idx.toNat⟩]
              { st2 with parts := newParts, currentPart := [], bracketContent := [] }
            else { st2 with bracketContent := [] }
        | none => { st2 with bracketContent := [] }
      else st
    else
      if st.inBracket then { st with bracketContent := st.bracketContent ++ [ch] }
      else { st with currentPart := st.currentPart ++ [ch] }
  if isLast && st1.currentPart.length > 0 then
    { st1 with parts := st1.parts ++ [⟨String.mk st1.currentPart, false, 0⟩] }
  else st1

/-- The parseFieldPath character loop.  The source tests the last iteration
by byte offset; field paths are ASCII in every configuration, where byte and
character positions coincide. -/
def parseFieldPathLoop : List Char → FPState → List FieldPathPart
  | [], st => st.parts
  | c :: rest, st => parseFieldPathLoop rest (parseFieldPathStep st c rest.isEmpty)

/-- executor.parseFieldPath. -/
def parseFieldPath (path : String) : List FieldPathPart :=
  if path = "" then [] else parseFieldPathLoop path.toList ⟨[], [], false, []⟩

/-- Named-segment access of extractFieldValue.  The source falls back to a
JSON re-encode of non-map values before giving up; in the GoValue universe a
non-map value never re-decodes into a JSON object, so the fallback fails.
A nil Go map is the empty field list, on which every lookup fails. -/
def fieldStepName (current : GoValue) (name : String) : Option GoValue :=
  match current with
  | .vMap fields => fields.lookup name
  | _ => none

/-- Index-segment access of extractFieldValue, with the same re-encode
fallback collapse for non-array values; out-of-range indices fail. -/
def fieldStepIndex (current : GoValue) (idx : Nat) : Option GoValue :=
  match current with
  | .vArr elems => elems.get? idx
  | _ => none

/-- The descent loop of executor.extractFieldValue; a Go nil result is vNull. -/
def extractFieldLoop : List FieldPathPart → GoValue → GoValue
  | [], current => current
  | part :: rest, current =>
    if part.isArr then
      let afterName : Option GoValue :=
        if part.name ≠ "" then fieldStepName current part.name else some current
      match afterName with
      | none => .vNull
      | some cur2 =>
        match fieldStepIndex cur2 part.index with
        | none => .vNull
        | some cur3 => extractFieldLoop rest cur3
    else
      match fieldStepName current part.name with
      | none => .vNull
      | some cur2 => extractFieldLoop rest cur2

/-- executor.extractFieldValue. -/
def extractFieldValue (body : GoValue) (fieldPath : String) : GoValue :=
  extractFieldLoop (parseFieldPath fieldPath) body

/-! ### Templating engine (executor.replaceVariables and its closures) -/

/-- Model of strings.HasPrefix, on the character-list representation (field
paths and the random marker are ASCII, where bytes and characters agree). -/
def goStartsWith (s p : String) : Bool := s.toList.take p.toList.length == p.toList

/-- Model of strings.TrimPrefix composed after a positive HasPrefix test:
drop the leading characters of the matched marker. -/
def goDropChars (s : String) (n : Nat) : String := String.mk (s.toList.drop n)

/-- Model of strings.SplitN(varPath, dot, 2): the test name before the first
dot and the remaining field path (empty when there is no dot). -/
def splitVarPath (s : String) : String × String :=
  let cs := s.toList
  let pre := cs.takeWhile (fun c => c != '.')
  if pre.length = cs.length then (s, "")
  else (String.mk pre, String.mk (cs.drop (pre.length + 1)))

/-- The extractValue closure of replaceVariables: resolve one placeholder
expression to a dynamic value.  The random-value generator (crypto/rand and
wall-clock based, hence impure) is the oracle `randomGen`, which receives the
full dollar-random expression exactly as generateRandomValue does and
returns the empty string where generateRandomValue would. -/
def extractValue (results : Store) (randomGen : String → String)
    (varPath0 : String) : Option GoValue :=
  let varPath := goTrimSpace varPath0
  if goStartsWith varPath "$random" then
    let randomValue := randomGen varPath
    if randomValue ≠ "" then some (.vStr randomValue) else none
  else
    let tf := splitVarPath varPath
    let testName := tf.1
    let fieldPath := tf.2
    match getResult results testName with
    | none => none
    | some depResult =>
      if goStartsWith fieldPath "request." then
        let fieldPath2 := goDropChars fieldPath "request.".toList.length
        let sourceData := depResult.request.body
        let value := if fieldPath2 = "" then sourceData
                     else extractFieldValue sourceData fieldPath2
        match value with
        | .vNull => none
        | v => some v
      else if goStartsWith fieldPath "response." then
        match depResult.response with
        | none => none
        | some resp =>
          let fieldPath2 := goDropChars fieldPath "response.".toList.length
          let sourceData : GoValue := .vMap resp.bodyJSON
          let value := if fieldPath2 = "" then sourceData
                       else extractFieldValue sourceData fieldPath2
          match value with
          | .vNull => none
          | v => some v
      else
        match depResult.response with
        | none => none
        | some resp =>
          let sourceData : GoValue := .vMap resp.bodyJSON
          let value := if fieldPath = "" then sourceData
                       else extractFieldValue sourceData fieldPath
          match value with
          | .vNull => none
          | v => some v

/-- The full text of a placeholder match with the given inner text. -/
def phText (inner : List Char) : String :=
  String.mk ('\x7b' :: '\x7b' :: (inner ++ ['\x7d', '\x7d']))

/-- Model of varPattern.FindAllStringSubmatch s (all matches with their
captured group). -/
def goFindMatches (s : String) : List (String × String) :=
  (scan s.toList).filterMap fun seg =>
    match seg with
    | .ph inner => some (phText inner, String.mk inner)
    | .lit _ => none

/-- Model of varPattern.ReplaceAllStringFunc: each match is replaced by the
image of its full text under f, literal text is kept. -/
def goReplaceAll (f : String → String) (s : String) : String :=
  String.mk ((scan s.toList).flatMap fun seg =>
    match seg with
    | .lit c => [c]
    | .ph inner => (f (phText inner)).toList)

/-- The replaceInString closure of replaceVariables: string-building
substitution; unresolved placeholders keep their original text. -/
def replaceInString (results : Store) (randomGen : String → String)
    (s : String) : String :=
  goReplaceAll (fun mtch =>
    let varPath := goTrimBraces mtch
    match extractValue results randomGen varPath with
    | some value => goFormat value
    | none => mtch) s

mutual

/-- The replaceInInterface closure of replaceVariables: on a string that is
(after trimming) exactly one placeholder match, the resolved value keeps its
dynamic type, a whole-number float64 becoming an int64; any other string goes
through replaceInString; maps and arrays recurse; other values are kept. -/
def replaceInInterface (results : Store) (randomGen : String → String) :
    GoValue → GoValue
  | .vStr val =>
    let trimmed := goTrimSpace val
    match goFindMatches trimmed with
    | [(m, g)] =>
      if trimmed = m then
        match extractValue results randomGen g with
        | some value =>
          match value with
          | .vFloat f => if isWholeFloat f then .vInt64 (truncFloat f) else .vFloat f
          | v2 => v2
        | none => .vStr (replaceInString results randomGen val)
      else .vStr (replaceInString results randomGen val)
    | _ => .vStr (replaceInString results randomGen val)
  | .vMap fields => .vMap (replaceInFields results randomGen fields)
  | .vArr elems => .vArr (replaceInValues results randomGen elems)
  | v => v

def replaceInValues (results : Store) (randomGen : String → String) :
    GoValues → GoValues
  | .nil => .nil
  | .cons v tl =>
    .cons (replaceInInterface results randomGen v) (replaceInValues results randomGen tl)

def replaceInFields (results : Store) (randomGen : String → String) :
    GoFields → GoFields
  | .nil => .nil
  | .cons k v tl =>
    .cons k (replaceInInterface results randomGen v) (replaceInFields results randomGen tl)

end

/-! ### Schema coercion (executor.convertToSchemaType and friends) -/

/-- executor.convertToSchemaType: best-effort conversion of one dynamic value
to a declared schema type; unconvertible values are returned unchanged. -/
def convertToSchemaType (value : GoValue) (expectedType : String) : GoValue :=
  match value with
  | .vNull => .vNull
  | _ =>
    if expectedType = "int" then
      match value with
      | .vInt n => .vInt n
      | .vInt64 n => .vInt n
      | .vFloat q => .vInt (truncFloat q)
      | .vStr s =>
        match goAtoi s with
        | some i => .vInt i
        | none => value
      | _ => value
    else if expectedType = "float" ∨ expectedType = "float64" then
      match value with
      | .vFloat q => .vFloat q
      | .vInt n => .vFloat (n : ℚ)
      | .vInt64 n => .vFloat (n : ℚ)
      | .vStr s =>
        match goParseFloat s with
        | some q => .vFloat q
        | none => value
      | _ => value
    else if expectedType = "string" then
      .vStr (goFormat value)
    else if expectedType = "bool" ∨ expectedType = "boolean" then
      match value with
      | .vBool b => .vBool b
      | .vStr s =>
        match goParseBool s with
        | some b => .vBool b
        | none => value
      | _ => value
    else
      value

/-- executor.setNestedValue, modelled functionally: the source mutates the
located map entry in place, which on the association model is an update
along the dot-separated path; missing or non-map intermediate segments leave
everything unchanged, exactly as the source returns early. -/
def setNestedLoop : List String → String → GoFields → GoFields
  | [], _, data => data
  | [field], expectedType, data =>
    data.modifyVal field (fun v => convertToSchemaType v expectedType)
  | field :: rest, expectedType, data =>
    data.modifyVal field (fun v =>
      match v with
      | .vMap inner => .vMap (setNestedLoop rest expectedType inner)
      | _ => v)

/-- Model of strings.Split on the dot separator, with fuel: every step
consumes at least one input character, so fuel exceeding the input length is
never exhausted. -/
def splitDotF : Nat → List Char → List (List Char)
  | 0, _ => []
  | fuel + 1, cs =>
    let pre := cs.takeWhile (fun c => c != '.')
    match cs.drop pre.length with
    | [] => [pre]
    | _ :: rest => pre :: splitDotF fuel rest

/-- Model of strings.Split on the dot separator. -/
def splitDotList (cs : List Char) : List (List Char) := splitDotF (cs.length + 1) cs

/-- executor.setNestedValue (path split included). -/
def setNestedValue (data : GoFields) (fieldPath : String)
    (expectedType : String) : GoFields :=
  setNestedLoop ((splitDotList fieldPath.toList).map String.mk) expectedType data

/-- executor.convertBodyToSchemaTypes: the schema map is iterated (Go map
order is arbitrary; the conversions of distinct field paths commute, and the
model folds in list order). -/
def convertBodyToSchemaTypes (body : GoValue) (schema : List (String × String)) :
    GoValue :=
  match body with
  | .vMap fields =>
    .vMap (schema.foldl (fun acc p => setNestedValue acc p.1 p.2) fields)
  | _ => body

/-- executor.replaceVariables: rewrite one test definition, substituting
placeholders in path, query, body and headers, then applying schema coercion
to the body when a body schema is declared.  The source guards the query and
body rewrites behind nil checks; on the model the rewrite of a nil (vNull)
body and of a nil (empty) map is the identity, so the guard is dropped. -/
def replaceVariables (results : Store) (randomGen : String → String)
    (apiTest : APITest) : APITest :=
  let req := apiTest.request
  let path2 := replaceInString results randomGen req.path
  let query2 :=
    match replaceInInterface results randomGen (.vMap req.query) with
    | .vMap m => m
    | _ => req.query
  let body1 := replaceInInterface results randomGen req.body
  let body2 :=
    if req.bodySchema.length > 0 then convertBodyToSchemaTypes body1 req.bodySchema
    else body1
  let headers2 := req.headers.map fun p => (p.1, replaceInString results randomGen p.2)
  { apiTest with request :=
      { req with path := path2, query := query2, body := body2, headers := headers2 } }

/-! ### Dependency resolver (executor.sortAPIsByWeight, resolveExecutionOrder) -/

/-- Stable descending insertion: place a test after every earlier-inserted
test of strictly greater weight and before the first one of smaller or equal
weight. -/
def orderedInsertByWeight (a : APITest) : List APITest → List APITest
  | [] => [a]
  | b :: l =>
    if b.weight ≤ a.weight then a :: b :: l else b :: orderedInsertByWeight a l

/-- executor.sortAPIsByWeight.  The source calls sort.SliceStable with the
strictly-greater-weight comparator; a stable sort is uniquely determined by
its comparator, and the model is the standard stable insertion sort for it. -/
def sortAPIsByWeight (apis : List APITest) : List APITest :=
  match apis with
  | [] => []
  | a :: rest => orderedInsertByWeight a (sortAPIsByWeight rest)

/-- The nameToIndex map built at the top of resolveExecutionOrder: the Go
range loop writes every index under its test name, later indices shadowing
earlier ones. -/
def buildNameToIndex (apis : List APITest) : String → Option Nat := fun name =>
  (List.range apis.length).foldl
    (fun acc i => if (apis.getD i default).name = name then some i else acc) none

/-- The mutable state of the topological walk in resolveExecutionOrder. -/
structure TopoState where
  visited : List Nat
  visiting : List Nat
  result : List APITest

/-- The recursive visit closure of resolveExecutionOrder.  The Go recursion
is modelled with fuel; a call chain adds a distinct index to the visiting set
at every level before recursing, so its depth never exceeds the number of
tests plus one and the fuel supplied by resolveExecutionOrder is never
exhausted (the claims that depend on a completed walk prove this). -/
def visit (apis : List APITest) (n2i : String → Option Nat) :
    Nat → Nat → TopoState → Bool × TopoState
  | 0, _, st => (false, st)
  | fuel + 1, idx, st =>
    if idx ∈ st.visited then (true, st)
    else if idx ∈ st.visiting then (false, st)
    else
      let st1 : TopoState := { st with visiting := idx :: st.visiting }
      let api := apis.getD idx default
      let r :=
        if api.dependsOn ≠ "" then
          match n2i api.dependsOn with
          | some depIdx => visit apis n2i fuel depIdx st1
          | none => (true, st1)
        else (true, st1)
      match r with
      | (true, st2) => (true, ⟨idx :: st2.visited, st2.visiting.erase idx, st2.result ++ [api]⟩)
      | (false, st2) => (false, st2)

/-- The outer index loop of resolveExecutionOrder; none signals a detected
cycle (visit returned false). -/
def topoLoop (apis : List APITest) (n2i : String → Option Nat) :
    List Nat → TopoState → Option TopoState
  | [], st => some st
  | i :: rest, st =>
    if i ∈ st.visited then topoLoop apis n2i rest st
    else
      match visit apis n2i (apis.length + 1) i st with
      | (true, st2) => topoLoop apis n2i rest st2
      | (false, _) => none

/-- executor.resolveExecutionOrder: topological order when the walk
completes, the input order unchanged when a cycle is detected. -/
def resolveExecutionOrder (apis : List APITest) : List APITest :=
  match topoLoop apis (buildNameToIndex apis) (List.range apis.length) ⟨[], [], []⟩ with
  | some st => st.result
  | none => apis

/-! ### Root-cause tracing (executor.findRootCause, executor.findDependsOn) -/

/-- executor.findDependsOn: the declared dependency of the first test with
the given name, or the empty string. -/
def findDependsOn (apis : List APITest) (testName : String) : String :=
  match apis.find? (fun api => api.name == testName) with
  | some api => api.dependsOn
  | none => ""

/-- executor.getDependencyFailureReason. -/
def getDependencyFailureReason (result : TestResult) : String :=
  if result.skipped then "被跳过" else "执行失败"

/-- The loop of executor.findRootCause, fuelled.  Every iteration adds one
previously unvisited name to the visited set and every followed name is a
declared dependency of some test (or the starting name), so the loop ends
within the number of tests plus two iterations; the fuel supplied by
findRootCause is never exhausted. -/
def findRootCauseAux (apis : List APITest) (results : Store) :
    Nat → List String → String → String
  | 0, _, current => current
  | fuel + 1, visited, current =>
    if current ∈ visited then current
    else
      let visited2 := current :: visited
      match getResult results current with
      | none => current
      | some result =>
        if !result.passed && !result.skipped then current
        else if result.skipped then
          let dependsOn := findDependsOn apis current
          if dependsOn = "" then current
          else findRootCauseAux apis results fuel visited2 dependsOn
        else current

/-- executor.findRootCause. -/
def findRootCause (apis : List APITest) (results : Store) (testName : String) :
    String :=
  findRootCauseAux apis results (apis.length + 2) [] testName

/-! ### Retry execution (executor.executeAPITest)

The HTTP transport and the response validator are external collaborators;
they enter as oracles.  The transport oracle receives the per-test attempt
number so that distinct attempts of one test may behave differently, as a
real network does. -/

/-- The HTTP client Do call, per request and per attempt number. -/
abbrev DoFn := RequestConfig → Nat → Except String Response

/-- The external validator applied to an expectation and a response. -/
abbrev ValidateFn := ResponseExpectation → Response → ValidationResult

/-- The attempt loop of executeAPITest.  The Go loop head compares the
attempt counter with the (possibly nonpositive) effective bound, so the body
runs max(bound, 0) times unless an attempt passes validation; the countdown
argument carries the remaining iteration count and the attempt argument the
Go loop counter. -/
def runAttempts (doFn : DoFn) (validate : ValidateFn) (apiTest : APITest) :
    Nat → Nat → TestResult → Option String → TestResult
  | 0, _, result, lastErr => { result with error := lastErr, passed := false }
  | remaining + 1, attempt, result, lastErr =>
    let result1 :=
      if attempt > 0 then { result with retryCount := result.retryCount + 1 } else result
    match doFn apiTest.request attempt with
    | .error e =>
      runAttempts doFn validate apiTest remaining (attempt + 1) result1 (some e)
    | .ok resp =>
      let result2 := { result1 with response := some resp, statusCode := resp.statusCode }
      let vr := validate apiTest.response resp
      let result3 := { result2 with validation := some vr }
      if vr.passed then { result3 with passed := true }
      else runAttempts doFn validate apiTest remaining (attempt + 1) result3 lastErr

/-- executor.executeAPITest. -/
def executeAPITest (doFn : DoFn) (validate : ValidateFn) (apiTest : APITest) :
    TestResult :=
  let init : TestResult :=
    { name := apiTest.name, description := apiTest.description,
      version := apiTest.version, passed := false, skipped := false,
      skipReason := "", statusCode := 0, request := apiTest.request,
      response := none, validation := none, error := none, retryCount := 0 }
  let maxRetries : Int :=
    if apiTest.retryPolicy.maxRetries = 0 then 1 else apiTest.retryPolicy.maxRetries + 1
  runAttempts doFn validate apiTest maxRetries.toNat 0 init none

/-! ### Orchestrator (executor.Execute, executor.ExecuteConcurrent) -/

/-- A skipped result as built by the dependency-gating branches of Execute
(Go zero values for the untouched fields: status code zero, no response). -/
def skippedResult (apiTest : APITest) (reason : String) : TestResult :=
  { name := apiTest.name, description := apiTest.description,
    version := apiTest.version, passed := false, skipped := true,
    skipReason := reason, statusCode := 0, request := apiTest.request,
    response := none, validation := none, error := none, retryCount := 0 }

/-- Record a skipped result: append to the report, bump the skipped and total
counters, store under the test name. -/
def recordSkip (st : Store × TestReport) (result : TestResult) :
    Store × TestReport :=
  let report := st.2
  (storeResult st.1 result,
   { report with
      results := report.results ++ [result],
      skippedTests := report.skippedTests + 1,
      totalTests := report.totalTests + 1 })

/-- The execution branch of the Execute loop body (template substitution,
retry execution, store, append, pass or fail counter). -/
def execRun (doFn : DoFn) (validate : ValidateFn) (randomGen : String → String)
    (apiTest : APITest) (st : Store × TestReport) : Store × TestReport :=
  let processedTest := replaceVariables st.1 randomGen apiTest
  let result := executeAPITest doFn validate processedTest
  let report := st.2
  (storeResult st.1 result,
   { report with
      results := report.results ++ [result],
      passedTests := if result.passed then report.passedTests + 1 else report.passedTests,
      failedTests := if result.passed then report.failedTests else report.failedTests + 1,
      totalTests := report.totalTests + 1 })

/-- One iteration of the Execute loop: dependency gating, then either a
skipped record or the execution branch.  The configured test list is passed
for root-cause tracing (findDependsOn consults the configuration, not the
resolved order). -/
def execStep (doFn : DoFn) (validate : ValidateFn) (randomGen : String → String)
    (cfgAPIs : List APITest) (st : Store × TestReport) (apiTest : APITest) :
    Store × TestReport :=
  if apiTest.dependsOn ≠ "" then
    match getResult st.1 apiTest.dependsOn with
    | none =>
      recordSkip st
        (skippedResult apiTest ("依赖接口 '" ++ apiTest.dependsOn ++ "' 未找到或未执行"))
    | some depResult =>
      if !depResult.passed || depResult.skipped then
        let rootCause := findRootCause cfgAPIs st.1 apiTest.dependsOn
        let reason :=
          if rootCause ≠ "" ∧ rootCause ≠ apiTest.dependsOn then
            "依赖接口 '" ++ apiTest.dependsOn ++ "' " ++
              getDependencyFailureReason depResult ++
              "（根本原因：接口 '" ++ rootCause ++ "' 执行失败）"
          else
            "依赖接口 '" ++ apiTest.dependsOn ++ "' " ++
              getDependencyFailureReason depResult
        recordSkip st (skippedResult apiTest reason)
      else execRun doFn validate randomGen apiTest st
  else execRun doFn validate randomGen apiTest st

/-- The order Execute walks: the weight-sorted list passed through the
dependency resolver. -/
def executionOrder (cfg : TestConfig) : List APITest :=
  resolveExecutionOrder (sortAPIsByWeight cfg.apis)

/-- An empty report carrying the run metadata. -/
def emptyReport (cfg : TestConfig) : TestReport :=
  { totalTests := 0, passedTests := 0, failedTests := 0, skippedTests := 0,
    results := [], version := cfg.version, baseURL := cfg.baseURL }

/-- executor.Execute: sequential execution over the resolved order. -/
def Execute (doFn : DoFn) (validate : ValidateFn) (randomGen : String → String)
    (cfg : TestConfig) : TestReport :=
  ((executionOrder cfg).foldl
    (execStep doFn validate randomGen cfg.apis) ([], emptyReport cfg)).2

/-- executor.ExecuteConcurrent.  Each spawned unit calls executeAPITest on
the raw test definition (no replaceVariables, no schema coercion, no
dependency gating and no result-store write appear in the source) and the
mutex-guarded report update appends the result and bumps the counters.  The
model fixes the schedule in which units complete in spawn order: the per-unit
work is schedule-independent, only the order of the results slice is not, and
the admission semaphore merely bounds parallelism. -/
def ExecuteConcurrent (doFn : DoFn) (validate : ValidateFn) (cfg : TestConfig) :
    TestReport :=
  cfg.apis.foldl
    (fun report test =>
      let result := executeAPITest doFn validate test
      { report with
          results := report.results ++ [result],
          passedTests := if result.passed then report.passedTests + 1 else report.passedTests,
          failedTests := if result.passed then report.failedTests else report.failedTests + 1,
          totalTests := report.totalTests + 1 })
    (emptyReport cfg)

end ApiAutoTest

namespace ApiAutoTest

/-! ### Concrete fixtures used by witnesses and counterexamples -/

/-- A minimal test definition builder for fixtures. -/
def fxTest (name dep : String) (w : Int) : APITest :=
  { name := name, description := "", version := "", versions := [], weight := w,
    dependsOn := dep,
    request := { method := "GET", path := "/p", headers := [], query := .nil,
                 body := .vNull, bodySchema := [] },
    response := { statusCode := 200, headers := [], body := .nil, bodyContains := [],
                  bodyExcludes := [], jsonSchema := "", validators := [] },
    retryPolicy := { maxRetries := 0, interval := 0 } }

/-- A stored outright-failed result for fixture test A. -/
def fxFailedA : TestResult :=
  { name := "A", description := "", version := "", passed := false,
    skipped := false, skipReason := "", statusCode := 500,
    request := (fxTest "A" "" 0).request,
    response := none, validation := none, error := none, retryCount := 0 }

/-- A stored skipped result for fixture test B. -/
def fxSkippedB : TestResult := { fxFailedA with name := "B", skipped := true }

/-- A stored skipped result for fixture test C. -/
def fxSkippedC : TestResult := { fxFailedA with name := "C", skipped := true }

/-- The configured chain A, B depends on A, C depends on B. -/
def chainApis : List APITest := [fxTest "A" "" 0, fxTest "B" "A" 0, fxTest "C" "B" 0]

/-- The store after the chain ran: A failed outright, B and C were skipped. -/
def chainStore : Store := [("A", fxFailedA), ("B", fxSkippedB), ("C", fxSkippedC)]

end ApiAutoTest

namespace ApiAutoTest

/-! ### Claim C6: integer schema coercion -/

/-- The claim asserts that a non-integral float is left unchanged by the
integer coercion; the source truncates every float64 with a plain cast, so
2.5 under declared type int becomes the integer 2 instead of staying 2.5. -/
theorem C6_counterexample :
    convertToSchemaType (.vFloat (mkRat 5 2)) "int" = .vInt 2 ∧
      convertToSchemaType (.vFloat (mkRat 5 2)) "int" ≠ .vFloat (mkRat 5 2) := by
  constructor
  · rfl
  · intro h
    rw [show convertToSchemaType (.vFloat (mkRat 5 2)) "int" = .vInt 2 from rfl] at h
    cases h

/-- C6 (corrected): under declared type int, an int stays itself, an int64
becomes an int, any float64 is truncated toward zero to an integer (whether
integral or not), a string that parses as an integer becomes that integer, a
string that fails to parse is left as-is, and every other value is left
unchanged. -/
theorem C6_int_coercion_table :
    (∀ n : Int, convertToSchemaType (.vInt n) "int" = .vInt n) ∧
    (∀ n : Int, convertToSchemaType (.vInt64 n) "int" = .vInt n) ∧
    (∀ q : ℚ, convertToSchemaType (.vFloat q) "int" = .vInt (truncFloat q)) ∧
    (∀ s i, goAtoi s = some i → convertToSchemaType (.vStr s) "int" = .vInt i) ∧
    (∀ s, goAtoi s = none → convertToSchemaType (.vStr s) "int" = .vStr s) ∧
    (∀ b, convertToSchemaType (.vBool b) "int" = .vBool b) ∧
    (∀ elems, convertToSchemaType (.vArr elems) "int" = .vArr elems) ∧
    (∀ fields, convertToSchemaType (.vMap fields) "int" = .vMap fields) ∧
    convertToSchemaType .vNull "int" = .vNull := by
  refine ⟨fun n => rfl, fun n => rfl, fun q => rfl, ?_, ?_,
    fun b => rfl, fun elems => rfl, fun fields => rfl, rfl⟩
  · intro s i h
    simp [convertToSchemaType, h]
  · intro s h
    simp [convertToSchemaType, h]

/-- Witness for C6: the table evaluated at a parseable and an unparseable
string. -/
theorem C6_witness :
    convertToSchemaType (.vStr "123") "int" = .vInt 123 ∧
      convertToSchemaType (.vStr "abc") "int" = .vStr "abc" :=
  ⟨C6_int_coercion_table.2.2.2.1 "123" 123 (by decide),
   C6_int_coercion_table.2.2.2.2.1 "abc" (by decide)⟩

/-! ### Claim C8: root-cause tracing -/

/-- C8 (confirmed): root-cause tracing returns the queried name when no
result is stored for it and when its stored result failed outright; a name
already visited terminates the walk; a skipped result is followed through
its declared dependency; and on the stored chain in which A failed outright,
B was skipped and depends on A, and C was skipped and depends on B, the
trace returns A whether started from B or from C. -/
theorem C8_root_cause_tracing :
    (∀ apis results name, getResult results name = none →
        findRootCause apis results name = name) ∧
    (∀ apis results name r, getResult results name = some r →
        r.passed = false → r.skipped = false →
        findRootCause apis results name = name) ∧
    (∀ apis results fuel visited name, name ∈ visited →
        findRootCauseAux apis results (fuel + 1) visited name = name) ∧
    (∀ apis results fuel visited name r, name ∉ visited →
        getResult results name = some r → r.skipped = true →
        findDependsOn apis name ≠ "" →
        findRootCauseAux apis results (fuel + 1) visited name =
          findRootCauseAux apis results fuel (name :: visited)
            (findDependsOn apis name)) ∧
    (findRootCause chainApis chainStore "B" = "A" ∧
      findRootCause chainApis chainStore "C" = "A") := by
  refine ⟨?_, ?_, ?_, ?_, by constructor <;> rfl⟩
  · intro apis results name h
    show findRootCauseAux apis results (apis.length + 1 + 1) [] name = name
    rw [findRootCauseAux]
    simp [h]
  · intro apis results name r h hp hs
    show findRootCauseAux apis results (apis.length + 1 + 1) [] name = name
    rw [findRootCauseAux]
    simp [h, hp, hs]
  · intro apis results fuel visited name h
    rw [findRootCauseAux]
    simp [h]
  · intro apis results fuel visited name r hnv h hs hd
    rw [findRootCauseAux]
    simp [hnv, h, hs, hd]

/-- Witness for C8: the no-stored-result rule at a concrete name and store. -/
theorem C8_witness : findRootCause chainApis [] "X" = "X" :=
  C8_root_cause_tracing.1 chainApis [] "X" rfl

end ApiAutoTest

namespace ApiAutoTest

/-! ### Claim C7: unresolved placeholders are left untouched -/

theorem flatMap_congr_mem {α β : Type} {l : List α} {f g : α → List β}
    (h : ∀ a ∈ l, f a = g a) : l.flatMap f = l.flatMap g := by
  induction l with
  | nil => rfl
  | cons a t ih =>
    simp only [List.flatMap_cons]
    rw [h a (by simp), ih (fun b hb => h b (by simp [hb]))]

/-- When every match is replaced by itself, ReplaceAllStringFunc returns the
input unchanged. -/
theorem goReplaceAll_id {f : String → String} {s : String}
    (h : ∀ inner, Seg.ph inner ∈ scan s.toList → f (phText inner) = phText inner) :
    goReplaceAll f s = s := by
  unfold goReplaceAll
  have hcong : ((scan s.toList).flatMap fun seg =>
      match seg with
      | .lit c => [c]
      | .ph inner => (f (phText inner)).toList) =
      (scan s.toList).flatMap segText := by
    apply flatMap_congr_mem
    intro seg hseg
    match seg with
    | .lit c => rfl
    | .ph inner =>
      show (f (phText inner)).toList = segText (.ph inner)
      rw [h inner hseg]
      rfl
  rw [hcong, scan_flatten]
  cases s
  rfl

/-- A test whose body carries a placeholder naming a test that never ran. -/
def fxMissingBodyTest : APITest :=
  { fxTest "M" "" 0 with request :=
      { (fxTest "M" "" 0).request with
          body := .vStr "\x7b\x7bmissing.response.x\x7d\x7d" } }

/-- C7 (confirmed): a placeholder occurrence whose expression does not
resolve (missing test, missing payload or unresolvable field path all make
extractValue yield no value) contributes its original full-brace text to the
substituted string, so a string all of whose placeholders are unresolved is
returned verbatim; in particular a body reading the response of the
nonexistent test named missing is sent with the literal placeholder text
unchanged. -/
theorem C7_unresolved_left_in_place :
    (∀ results randomGen s,
        (∀ inner, Seg.ph inner ∈ scan s.toList →
          extractValue results randomGen (goTrimBraces (phText inner)) = none) →
        replaceInString results randomGen s = s) ∧
    (replaceVariables [] (fun _ => "") fxMissingBodyTest).request.body =
      .vStr "\x7b\x7bmissing.response.x\x7d\x7d" := by
  constructor
  · intro results randomGen s h
    unfold replaceInString
    apply goReplaceAll_id
    intro inner hmem
    simp [h inner hmem]
  · rfl

/-- Witness for C7: the body example itself instantiates the universal part,
with the single placeholder of the input shown unresolved. -/
theorem C7_witness :
    replaceInString [] (fun _ => "")
      "\x7b\x7bmissing.response.x\x7d\x7d" = "\x7b\x7bmissing.response.x\x7d\x7d" := by
  apply C7_unresolved_left_in_place.1
  intro inner hmem
  have hscan : scan ("\x7b\x7bmissing.response.x\x7d\x7d" : String).toList =
      [Seg.ph ("missing.response.x" : String).toList] := rfl
  rw [hscan] at hmem
  simp only [List.mem_singleton, Seg.ph.injEq] at hmem
  subst hmem
  rfl

end ApiAutoTest

namespace ApiAutoTest

/-! ### Claim C5: native-type substitution for single whole placeholders -/

theorem takeWhile_brace (inner rest : List Char) (h : ∀ c ∈ inner, c ≠ '\x7d') :
    (inner ++ '\x7d' :: rest).takeWhile (fun c => c != '\x7d') = inner := by
  induction inner with
  | nil => simp [List.takeWhile_cons]
  | cons a t ih =>
    have ha : a ≠ '\x7d' := h a (by simp)
    simp [List.takeWhile_cons, ha, ih (fun c hc => h c (by simp [hc]))]

theorem phSplit_whole (inner : List Char) (hne : inner ≠ [])
    (h : ∀ c ∈ inner, c ≠ '\x7d') :
    phSplit (inner ++ ['\x7d', '\x7d']) = some (inner, []) := by
  simp only [phSplit]
  rw [show (inner ++ ['\x7d', '\x7d']) = inner ++ '\x7d' :: ['\x7d'] from rfl] at *
  rw [takeWhile_brace inner ['\x7d'] h]
  rw [List.drop_left]
  simp [hne]

theorem scan_whole (inner : List Char) (hne : inner ≠ [])
    (h : ∀ c ∈ inner, c ≠ '\x7d') :
    scan ('\x7b' :: '\x7b' :: (inner ++ ['\x7d', '\x7d'])) = [.ph inner] := by
  unfold scan
  rw [scanF.eq_def]
  simp only [List.length_cons, if_true]
  rw [phSplit_whole inner hne h]
  dsimp only
  rw [show scanF ((inner ++ ['\x7d', '\x7d']).length + 1 + 1) [] = [] from by
    rw [scanF.eq_def]]

theorem goTrimSpace_phText (inner : List Char) :
    goTrimSpace (phText inner) = phText inner := by
  unfold goTrimSpace phText goTrimSpaceList
  have h1 : ('\x7b' :: '\x7b' :: (inner ++ ['\x7d', '\x7d'])).dropWhile isSpaceChar
      = '\x7b' :: '\x7b' :: (inner ++ ['\x7d', '\x7d']) := by
    rw [List.dropWhile_cons]
    simp [isSpaceChar]
  have h2 : ('\x7b' :: '\x7b' :: (inner ++ ['\x7d', '\x7d'])).reverse
      = '\x7d' :: '\x7d' :: (inner.reverse ++ ['\x7b', '\x7b']) := by
    simp
  have h3 : ('\x7d' :: '\x7d' :: (inner.reverse ++ ['\x7b', '\x7b'])).dropWhile isSpaceChar
      = '\x7d' :: '\x7d' :: (inner.reverse ++ ['\x7b', '\x7b']) := by
    rw [List.dropWhile_cons]
    simp [isSpaceChar]
  show String.mk _ = String.mk _
  congr 1
  rw [show (String.mk ('\x7b' :: '\x7b' :: (inner ++ ['\x7d', '\x7d']))).toList
      = '\x7b' :: '\x7b' :: (inner ++ ['\x7d', '\x7d']) from rfl]
  rw [h1, h2, h3, ← h2, List.reverse_reverse]

/-- C5 (corrected): a string value that, after trimming surrounding white
space, is exactly one whole placeholder whose expression resolves is replaced
by the resolved value with its dynamic type preserved, a whole-number float
normalized to an integer; any string for which the trimmed single-whole-match
test fails is rebuilt by string substitution. -/
theorem C5_native_type_substitution :
    (∀ results randomGen inner value, inner ≠ [] → (∀ c ∈ inner, c ≠ '\x7d') →
        extractValue results randomGen (String.mk inner) = some value →
        replaceInInterface results randomGen (.vStr (phText inner)) =
          (match value with
           | .vFloat f => if isWholeFloat f then .vInt64 (truncFloat f) else .vFloat f
           | v => v)) ∧
    (∀ results randomGen s,
        (∀ m g, goFindMatches (goTrimSpace s) = [(m, g)] → goTrimSpace s ≠ m) →
        replaceInInterface results randomGen (.vStr s) =
          .vStr (replaceInString results randomGen s)) := by
  constructor
  · intro results randomGen inner value hne hb hex
    rw [replaceInInterface]
    have hm : goFindMatches (goTrimSpace (phText inner)) =
        [(phText inner, String.mk inner)] := by
      rw [goTrimSpace_phText]
      unfold goFindMatches
      rw [show (phText inner).toList = '\x7b' :: '\x7b' :: (inner ++ ['\x7d', '\x7d'])
          from rfl]
      rw [scan_whole inner hne hb]
      rfl
    rw [hm]
    dsimp only
    rw [if_pos (goTrimSpace_phText inner), hex]
  · intro results randomGen s h
    rw [replaceInInterface]
    match hm : goFindMatches (goTrimSpace s) with
    | [] => rfl
    | [(m, g)] =>
      dsimp only
      rw [if_neg (h m g hm)]
    | (m1 :: m2 :: rest) => rfl

end ApiAutoTest

namespace ApiAutoTest

/-- A stored passing result for a test named t with a JSON response holding
a boolean field x and a whole-number float field id. -/
def fxRespT : Response :=
  { statusCode := 200,
    bodyJSON := GoFields.ofList [("x", .vBool true), ("id", .vFloat 123)] }

/-- The stored execution result of test t. -/
def fxResultT : TestResult :=
  { fxFailedA with
      name := "t", passed := true, statusCode := 200, response := some fxRespT }

/-- A store holding only the result of test t. -/
def fxStoreT : Store := [("t", fxResultT)]

/-- The claim asserts that a string holding a placeholder plus other text
always becomes a string; the source trims surrounding white space before the
single-whole-placeholder test, so a space-padded placeholder resolving to a
boolean yields the boolean itself, not a string. -/
theorem C5_counterexample :
    replaceInInterface fxStoreT (fun _ => "") (.vStr " \x7b\x7bt.x\x7d\x7d ") = .vBool true ∧
      (∀ s : String, GoValue.vBool true ≠ GoValue.vStr s) :=
  ⟨rfl, fun _ h => GoValue.noConfusion h⟩

/-- Witness for C5: the native-type branch evaluated on the placeholder
reading the boolean field of the stored response of t. -/
theorem C5_witness :
    replaceInInterface fxStoreT (fun _ => "")
      (.vStr "\x7b\x7bt.x\x7d\x7d") = .vBool true := by
  have h := C5_native_type_substitution.1 fxStoreT (fun _ => "")
      ("t.x".toList) (.vBool true) (by decide) (by decide) rfl
  exact h

end ApiAutoTest

namespace ApiAutoTest

/-! ### Claim C4: cycle fallback and skipping -/

/-- A three-test configuration whose dependencies form the cycle A to B to C
back to A. -/
def cycleCfg : TestConfig :=
  { baseURL := "http://x", version := "v", headers := [],
    apis := [fxTest "A" "B" 0, fxTest "B" "C" 0, fxTest "C" "A" 0] }

/-- C4 (confirmed): when the topological walk detects a cycle, the resolver
returns its input (the weight-sorted order) unchanged; on the concrete
three-test cycle, the resolved order is the weight-sorted order, and under
sequential execution with any transport, validator and random oracle each of
A, B and C is recorded as skipped with status code zero and no response (the
HTTP client was never called for them). -/
theorem C4_cycle_fallback :
    (∀ apis : List APITest,
        topoLoop apis (buildNameToIndex apis) (List.range apis.length) ⟨[], [], []⟩ = none →
        resolveExecutionOrder apis = apis) ∧
    executionOrder cycleCfg = sortAPIsByWeight cycleCfg.apis ∧
    (∀ doFn validate randomGen,
        (Execute doFn validate randomGen cycleCfg).results.map
          (fun r => (r.name, r.skipped, r.statusCode, r.response)) =
        [("A", true, 0, none), ("B", true, 0, none), ("C", true, 0, none)]) := by
  refine ⟨?_, rfl, fun _ _ _ => rfl⟩
  intro apis h
  unfold resolveExecutionOrder
  rw [h]

/-- Witness for C4: the fallback applied to the concrete cycle. -/
theorem C4_witness :
    resolveExecutionOrder (sortAPIsByWeight cycleCfg.apis) =
      sortAPIsByWeight cycleCfg.apis :=
  C4_cycle_fallback.1 (sortAPIsByWeight cycleCfg.apis) rfl

/-! ### Claim C2: concurrent mode -/

/-- A test whose request path holds a random placeholder, so that templating
would visibly rewrite it. -/
def fxRandomTest : APITest :=
  { fxTest "r" "" 0 with request :=
      { (fxTest "r" "" 0).request with path := "/x/\x7b\x7b$random.string\x7d\x7d" } }

/-- A one-test configuration for the concurrent counterexample. -/
def c2Cfg : TestConfig :=
  { baseURL := "", version := "", headers := [], apis := [fxRandomTest] }

/-- A transport that always fails. -/
def c2DoFn : DoFn := fun _ _ => .error "network down"

/-- A validator that always rejects. -/
def c2Validate : ValidateFn := fun _ _ => { passed := false, errors := [], warnings := [] }

/-- A random generator oracle returning a fixed token. -/
def c2RandomGen : String → String := fun _ => "FIXED"

/-- The claim asserts every concurrent unit performs step 2 (templating and
coercion) before executing; the source calls executeAPITest on the raw
definition, so the recorded request still carries the literal placeholder,
while step 2 would have rewritten the path. -/
theorem C2_counterexample :
    (ExecuteConcurrent c2DoFn c2Validate c2Cfg).results.map
        (fun r => r.request.path) = ["/x/\x7b\x7b$random.string\x7d\x7d"] ∧
    (replaceVariables [] c2RandomGen fxRandomTest).request.path = "/x/FIXED" ∧
    ("/x/\x7b\x7b$random.string\x7d\x7d" : String) ≠ "/x/FIXED" := by
  refine ⟨rfl, rfl, by decide⟩

theorem concurrentFoldSpec (doFn : DoFn) (validate : ValidateFn)
    (tests : List APITest) (rep : TestReport)
    (hsum : rep.totalTests = rep.passedTests + rep.failedTests + rep.skippedTests) :
    (tests.foldl
      (fun report test =>
        let result := executeAPITest doFn validate test
        { report with
            results := report.results ++ [result],
            passedTests := if result.passed then report.passedTests + 1 else report.passedTests,
            failedTests := if result.passed then report.failedTests else report.failedTests + 1,
            totalTests := report.totalTests + 1 }) rep).results =
        rep.results ++ tests.map (executeAPITest doFn validate) ∧
    (tests.foldl
      (fun report test =>
        let result := executeAPITest doFn validate test
        { report with
            results := report.results ++ [result],
            passedTests := if result.passed then report.passedTests + 1 else report.passedTests,
            failedTests := if result.passed then report.failedTests else report.failedTests + 1,
            totalTests := report.totalTests + 1 }) rep).totalTests =
        rep.totalTests + tests.length ∧
    (tests.foldl
      (fun report test =>
        let result := executeAPITest doFn validate test
        { report with
            results := report.results ++ [result],
            passedTests := if result.passed then report.passedTests + 1 else report.passedTests,
            failedTests := if result.passed then report.failedTests else report.failedTests + 1,
            totalTests := report.totalTests + 1 }) rep).totalTests =
        (tests.foldl
          (fun report test =>
            let result := executeAPITest doFn validate test
            { report with
                results := report.results ++ [result],
                passedTests := if result.passed then report.passedTests + 1 else report.passedTests,
                failedTests := if result.passed then report.failedTests else report.failedTests + 1,
                totalTests := report.totalTests + 1 }) rep).passedTests +
        (tests.foldl
          (fun report test =>
            let result := executeAPITest doFn validate test
            { report with
                results := report.results ++ [result],
                passedTests := if result.passed then report.passedTests + 1 else report.passedTests,
                failedTests := if result.passed then report.failedTests else report.failedTests + 1,
                totalTests := report.totalTests + 1 }) rep).failedTests +
        (tests.foldl
          (fun report test =>
            let result := executeAPITest doFn validate test
            { report with
                results := report.results ++ [result],
                passedTests := if result.passed then report.passedTests + 1 else report.passedTests,
                failedTests := if result.passed then report.failedTests else report.failedTests + 1,
                totalTests := report.totalTests + 1 }) rep).skippedTests ∧
    (tests.foldl
      (fun report test =>
        let result := executeAPITest doFn validate test
        { report with
            results := report.results ++ [result],
            passedTests := if result.passed then report.passedTests + 1 else report.passedTests,
            failedTests := if result.passed then report.failedTests else report.failedTests + 1,
            totalTests := report.totalTests + 1 }) rep).skippedTests = rep.skippedTests := by
  induction tests generalizing rep with
  | nil => simpa using hsum
  | cons t ts ih =>
    simp only [List.foldl_cons, List.map_cons]
    have step : rep.totalTests + 1 =
        (if (executeAPITest doFn validate t).passed then rep.passedTests + 1 else rep.passedTests) +
        (if (executeAPITest doFn validate t).passed then rep.failedTests else rep.failedTests + 1) +
        rep.skippedTests := by
      by_cases hp : (executeAPITest doFn validate t).passed <;> simp [hp, hsum] <;> omega
    obtain ⟨h1, h2, h3, h4⟩ := ih
      { rep with
          results := rep.results ++ [executeAPITest doFn validate t],
          passedTests :=
            if (executeAPITest doFn validate t).passed then rep.passedTests + 1
            else rep.passedTests,
          failedTests :=
            if (executeAPITest doFn validate t).passed then rep.failedTests
            else rep.failedTests + 1,
          totalTests := rep.totalTests + 1 } step
    refine ⟨?_, ?_, h3, h4⟩
    · rw [h1]
      simp
    · rw [h2]
      simp
      omega

/-- C2 (corrected): every concurrent unit executes its raw test definition
directly (no dependency gating, no templating, no schema coercion and no
result-store write appear in concurrent mode): the report lists exactly the
executeAPITest outcome of every configured test in declaration order, the
counters add up, and nothing is ever skipped. -/
theorem C2_concurrent_raw_execution (doFn : DoFn) (validate : ValidateFn)
    (cfg : TestConfig) :
    (ExecuteConcurrent doFn validate cfg).results =
      cfg.apis.map (executeAPITest doFn validate) ∧
    (ExecuteConcurrent doFn validate cfg).totalTests = cfg.apis.length ∧
    (ExecuteConcurrent doFn validate cfg).totalTests =
      (ExecuteConcurrent doFn validate cfg).passedTests +
      (ExecuteConcurrent doFn validate cfg).failedTests +
      (ExecuteConcurrent doFn validate cfg).skippedTests ∧
    (ExecuteConcurrent doFn validate cfg).skippedTests = 0 := by
  have h := concurrentFoldSpec doFn validate cfg.apis (emptyReport cfg) rfl
  obtain ⟨h1, h2, h3, h4⟩ := h
  exact ⟨by simpa [ExecuteConcurrent, emptyReport] using h1,
    by simpa [ExecuteConcurrent, emptyReport] using h2,
    by simpa [ExecuteConcurrent, emptyReport] using h3,
    by simpa [ExecuteConcurrent, emptyReport] using h4⟩

end ApiAutoTest

namespace ApiAutoTest

/-! ### Claim C3: retry semantics -/

/-- Observable outcome of one attempt: the transport succeeds and the
validator passes the response. -/
def attemptPasses (doFn : DoFn) (validate : ValidateFn) (t : APITest) (k : Nat) : Bool :=
  match doFn t.request k with
  | .error _ => false
  | .ok resp => (validate t.response resp).passed

/-- The effective attempt count of executeAPITest: one when max retries is
zero, max retries plus one otherwise, clamped at zero for negative values. -/
def effectiveAttempts (mr : Int) : Nat := (if mr = 0 then 1 else mr + 1).toNat

theorem runAttempts_all_fail (doFn : DoFn) (validate : ValidateFn) (t : APITest) :
    ∀ remaining attempt res lastErr, 1 ≤ attempt →
      (∀ k, attempt ≤ k → attemptPasses doFn validate t k = false) →
      (runAttempts doFn validate t remaining attempt res lastErr).passed = false ∧
      (runAttempts doFn validate t remaining attempt res lastErr).retryCount =
        res.retryCount + remaining := by
  intro remaining
  induction remaining with
  | zero =>
    intro attempt res lastErr h1 h2
    simp [runAttempts]
  | succ rem ih =>
    intro attempt res lastErr h1 h2
    rw [runAttempts]
    have hx := h2 attempt (le_refl _)
    unfold attemptPasses at hx
    dsimp only
    rw [if_pos (show attempt > 0 by omega)]
    match hdo : doFn t.request attempt with
    | .error e =>
      have := ih (attempt + 1) { res with retryCount := res.retryCount + 1 } (some e)
        (by omega) (fun k hk => h2 k (by omega))
      rw [this.1, this.2]
      simp
      omega
    | .ok resp =>
      rw [hdo] at hx
      dsimp only at hx
      dsimp only
      rw [if_neg (by simp [hx])]
      have := ih (attempt + 1)
        { res with
            retryCount := res.retryCount + 1, response := some resp,
            statusCode := resp.statusCode,
            validation := some (validate t.response resp) } lastErr
        (by omega) (fun k hk => h2 k (by omega))
      rw [this.1, this.2]
      simp
      omega

theorem runAttempts_first_pass (doFn : DoFn) (validate : ValidateFn) (t : APITest) :
    ∀ remaining attempt res lastErr k, 1 ≤ attempt → attempt ≤ k →
      k < attempt + remaining →
      (∀ j, attempt ≤ j → j < k → attemptPasses doFn validate t j = false) →
      attemptPasses doFn validate t k = true →
      (runAttempts doFn validate t remaining attempt res lastErr).passed = true ∧
      (runAttempts doFn validate t remaining attempt res lastErr).retryCount =
        res.retryCount + (k - attempt) + 1 := by
  intro remaining
  induction remaining with
  | zero =>
    intro attempt res lastErr k h1 hk1 hk2 hfail hpass
    omega
  | succ rem ih =>
    intro attempt res lastErr k h1 hk1 hk2 hfail hpass
    rw [runAttempts]
    dsimp only
    rw [if_pos (show attempt > 0 by omega)]
    by_cases hak : attempt = k
    · subst hak
      unfold attemptPasses at hpass
      match hdo : doFn t.request attempt with
      | .error e => rw [hdo] at hpass; cases hpass
      | .ok resp =>
        rw [hdo] at hpass
        dsimp only at hpass
        dsimp only
        rw [if_pos hpass]
        simp
    · have hlt : attempt < k := by omega
      have hx := hfail attempt (le_refl _) hlt
      unfold attemptPasses at hx
      match hdo : doFn t.request attempt with
      | .error e =>
        have := ih (attempt + 1) { res with retryCount := res.retryCount + 1 } (some e) k
          (by omega) (by omega) (by omega)
          (fun j hj1 hj2 => hfail j (by omega) hj2) hpass
        rw [this.1, this.2]
        simp
        omega
      | .ok resp =>
        rw [hdo] at hx
        dsimp only at hx
        dsimp only
        rw [if_neg (by simp [hx])]
        have := ih (attempt + 1)
          { res with
              retryCount := res.retryCount + 1, response := some resp,
              statusCode := resp.statusCode,
              validation := some (validate t.response resp) } lastErr k
          (by omega) (by omega) (by omega)
          (fun j hj1 hj2 => hfail j (by omega) hj2) hpass
        rw [this.1, this.2]
        simp
        omega

end ApiAutoTest

namespace ApiAutoTest

theorem runAttempts_zero_all_fail (doFn : DoFn) (validate : ValidateFn)
    (t : APITest) (A : Nat) (res : TestResult) (hres : res.retryCount = 0)
    (h : ∀ k, attemptPasses doFn validate t k = false) :
    (runAttempts doFn validate t A 0 res none).passed = false ∧
    (runAttempts doFn validate t A 0 res none).retryCount = A - 1 := by
  match A with
  | 0 => simp [runAttempts, hres]
  | a + 1 =>
    rw [runAttempts]
    dsimp only
    rw [if_neg (by omega)]
    have hx := h 0
    unfold attemptPasses at hx
    match hdo : doFn t.request 0 with
    | .error e =>
      have hrec := runAttempts_all_fail doFn validate t a 1 res (some e) (by omega)
        (fun k _ => h k)
      rw [hrec.1, hrec.2, hres]
      simp
    | .ok resp =>
      rw [hdo] at hx
      dsimp only at hx
      dsimp only
      rw [if_neg (by simp [hx])]
      have hrec := runAttempts_all_fail doFn validate t a 1
        { res with response := some resp, statusCode := resp.statusCode,
                   validation := some (validate t.response resp) } none (by omega)
        (fun k _ => h k)
      rw [hrec.1, hrec.2]
      simp [hres]

theorem runAttempts_zero_first_pass (doFn : DoFn) (validate : ValidateFn)
    (t : APITest) (A : Nat) (res : TestResult) (hres : res.retryCount = 0)
    (k : Nat) (hk : k < A)
    (hpass : attemptPasses doFn validate t k = true)
    (hfail : ∀ j, j < k → attemptPasses doFn validate t j = false) :
    (runAttempts doFn validate t A 0 res none).passed = true ∧
    (runAttempts doFn validate t A 0 res none).retryCount = k := by
  match A, hk with
  | a + 1, hk =>
    rw [runAttempts]
    dsimp only
    rw [if_neg (by omega)]
    by_cases hk0 : k = 0
    · subst hk0
      have hp := hpass
      unfold attemptPasses at hp
      match hdo : doFn t.request 0 with
      | .error e => rw [hdo] at hp; cases hp
      | .ok resp =>
        rw [hdo] at hp
        dsimp only at hp
        dsimp only
        rw [if_pos hp]
        simp [hres]
    · have hx := hfail 0 (by omega)
      unfold attemptPasses at hx
      match hdo : doFn t.request 0 with
      | .error e =>
        have hrec := runAttempts_first_pass doFn validate t a 1 res (some e) k
          (by omega) (by omega) (by omega) (fun j _ hj2 => hfail j hj2) hpass
        rw [hrec.1, hrec.2, hres]
        simp
        omega
      | .ok resp =>
        rw [hdo] at hx
        dsimp only at hx
        dsimp only
        rw [if_neg (by simp [hx])]
        have hrec := runAttempts_first_pass doFn validate t a 1
          { res with response := some resp, statusCode := resp.statusCode,
                     validation := some (validate t.response resp) } none k
          (by omega) (by omega) (by omega) (fun j _ hj2 => hfail j hj2) hpass
        rw [hrec.1, hrec.2]
        simp [hres]
        omega

theorem executeAPITest_all_fail (doFn : DoFn) (validate : ValidateFn) (t : APITest)
    (h : ∀ k, attemptPasses doFn validate t k = false) :
    (executeAPITest doFn validate t).passed = false ∧
    (executeAPITest doFn validate t).retryCount =
      effectiveAttempts t.retryPolicy.maxRetries - 1 :=
  runAttempts_zero_all_fail doFn validate t _ _ rfl h

theorem executeAPITest_first_pass (doFn : DoFn) (validate : ValidateFn) (t : APITest)
    (k : Nat) (hk : k < effectiveAttempts t.retryPolicy.maxRetries)
    (hpass : attemptPasses doFn validate t k = true)
    (hfail : ∀ j, j < k → attemptPasses doFn validate t j = false) :
    (executeAPITest doFn validate t).passed = true ∧
    (executeAPITest doFn validate t).retryCount = k :=
  runAttempts_zero_first_pass doFn validate t _ _ rfl k hk hpass hfail

/-- A successful empty JSON response. -/
def fxOkResp : Response := { statusCode := 200, bodyJSON := .nil }

/-- A transport that always succeeds. -/
def fxDoOk : DoFn := fun _ _ => .ok fxOkResp

/-- A validator that always accepts. -/
def fxValidatePass : ValidateFn := fun _ _ => { passed := true, errors := [], warnings := [] }

/-- A test configured with a negative max retries value. -/
def fxNegRetryTest : APITest :=
  { fxTest "N" "" 0 with retryPolicy := { maxRetries := -1, interval := 0 } }

/-- The test of the concrete retry scenario: max retries two. -/
def fxRetryTest : APITest :=
  { fxTest "R" "" 0 with retryPolicy := { maxRetries := 2, interval := 0 } }

/-- A transport failing on the first two attempts and succeeding on the
third. -/
def fxDoRetry : DoFn := fun _ attempt => if attempt < 2 then .error "net" else .ok fxOkResp

/-- The claim asserts that a test without positive max retries performs
exactly one attempt and passes on a passing first attempt; with max retries
minus one the source runs zero attempts, so a test whose first attempt would
have passed ends failed, with no response and no retry recorded. -/
theorem C3_counterexample :
    fxNegRetryTest.retryPolicy.maxRetries < 0 ∧
    (executeAPITest fxDoOk fxValidatePass fxNegRetryTest).passed = false ∧
    (executeAPITest fxDoOk fxValidatePass fxNegRetryTest).response = none ∧
    (executeAPITest fxDoOk fxValidatePass fxNegRetryTest).retryCount = 0 :=
  ⟨by decide, rfl, rfl, rfl⟩

/-- C3 (corrected): the effective attempt count is max retries plus one for
positive max retries, one for zero, and zero for negative values (no attempt
at all); when every attempt fails the test ends failed with the attempts
beyond the first recorded as the retry count; the loop stops and marks the
test passed at the first attempt whose validation passes, recording that
attempt index as the retry count; and the concrete scenario with max retries
two, transport failing on the first two attempts and passing validation on
the third ends with retry count two and passed true. -/
theorem C3_retry_accounting :
    (∀ mr : Int, 0 < mr → effectiveAttempts mr = mr.toNat + 1) ∧
    effectiveAttempts 0 = 1 ∧
    (∀ mr : Int, mr < 0 → effectiveAttempts mr = 0) ∧
    (∀ doFn validate t, (∀ k, attemptPasses doFn validate t k = false) →
        (executeAPITest doFn validate t).passed = false ∧
        (executeAPITest doFn validate t).retryCount =
          effectiveAttempts t.retryPolicy.maxRetries - 1) ∧
    (∀ doFn validate t k, k < effectiveAttempts t.retryPolicy.maxRetries →
        attemptPasses doFn validate t k = true →
        (∀ j, j < k → attemptPasses doFn validate t j = false) →
        (executeAPITest doFn validate t).passed = true ∧
        (executeAPITest doFn validate t).retryCount = k) ∧
    ((executeAPITest fxDoRetry fxValidatePass fxRetryTest).retryCount = 2 ∧
      (executeAPITest fxDoRetry fxValidatePass fxRetryTest).passed = true) := by
  refine ⟨?_, rfl, ?_, ?_, ?_, rfl, rfl⟩
  · intro mr h
    unfold effectiveAttempts
    rw [if_neg (by omega)]
    omega
  · intro mr h
    unfold effectiveAttempts
    rw [if_neg (by omega)]
    omega
  · exact fun doFn validate t h => executeAPITest_all_fail doFn validate t h
  · exact fun doFn validate t k hk hp hf =>
      executeAPITest_first_pass doFn validate t k hk hp hf

/-- Witness for C3: the first-pass rule evaluated on the concrete retry
scenario. -/
theorem C3_witness :
    (executeAPITest fxDoRetry fxValidatePass fxRetryTest).passed = true ∧
    (executeAPITest fxDoRetry fxValidatePass fxRetryTest).retryCount = 2 :=
  C3_retry_accounting.2.2.2.2.1 fxDoRetry fxValidatePass fxRetryTest 2
    (by decide) (by decide) (by decide)

end ApiAutoTest

namespace ApiAutoTest

/-! ### Claim C9: weight-descending stable sort for dependency-free sets -/

open List in
theorem orderedInsert_perm (a : APITest) (l : List APITest) :
    (orderedInsertByWeight a l).Perm (a :: l) := by
  induction l with
  | nil => simp [orderedInsertByWeight]
  | cons b t ih =>
    rw [orderedInsertByWeight]
    split
    · exact Perm.refl _
    · exact (ih.cons b).trans (Perm.swap a b t)

theorem orderedInsert_sorted (a : APITest) (l : List APITest)
    (h : l.Pairwise (fun x y => y.weight ≤ x.weight)) :
    (orderedInsertByWeight a l).Pairwise (fun x y => y.weight ≤ x.weight) := by
  induction l with
  | nil => simp [orderedInsertByWeight]
  | cons b t ih =>
    rw [orderedInsertByWeight]
    rw [List.pairwise_cons] at h
    split
    · next hba =>
      rw [List.pairwise_cons]
      refine ⟨?_, List.pairwise_cons.2 h⟩
      intro y hy
      rcases List.mem_cons.1 hy with rfl | hyt
      · exact hba
      · exact le_trans (h.1 y hyt) hba
    · next hba =>
      rw [List.pairwise_cons]
      refine ⟨?_, ih h.2⟩
      intro y hy
      have := (orderedInsert_perm a t).mem_iff.1 hy
      rcases List.mem_cons.1 this with rfl | hyt
      · omega
      · exact h.1 y hyt

theorem orderedInsert_filter (a : APITest) (l : List APITest) (w : Int) :
    (orderedInsertByWeight a l).filter (fun x => x.weight == w) =
      if a.weight = w then a :: l.filter (fun x => x.weight == w)
      else l.filter (fun x => x.weight == w) := by
  induction l with
  | nil =>
    by_cases hw : a.weight = w <;>
      simp [orderedInsertByWeight, List.filter_cons, hw]
  | cons b t ih =>
    rw [orderedInsertByWeight]
    split
    · next hba =>
      by_cases hw : a.weight = w <;> simp [List.filter_cons, hw]
    · next hba =>
      by_cases hw : a.weight = w
      · have hbw : ¬ b.weight = w := by omega
        simp [List.filter_cons, hbw, ih, hw]
      · by_cases hbw : b.weight = w <;> simp [List.filter_cons, hbw, ih, hw]

theorem sortAPIsByWeight_perm (l : List APITest) :
    (sortAPIsByWeight l).Perm l := by
  induction l with
  | nil => simp [sortAPIsByWeight]
  | cons a t ih =>
    rw [sortAPIsByWeight]
    exact (orderedInsert_perm a (sortAPIsByWeight t)).trans (ih.cons a)

theorem sortAPIsByWeight_sorted (l : List APITest) :
    (sortAPIsByWeight l).Pairwise (fun x y => y.weight ≤ x.weight) := by
  induction l with
  | nil => simp [sortAPIsByWeight]
  | cons a t ih =>
    rw [sortAPIsByWeight]
    exact orderedInsert_sorted a _ ih

theorem sortAPIsByWeight_filter (l : List APITest) (w : Int) :
    (sortAPIsByWeight l).filter (fun x => x.weight == w) =
      l.filter (fun x => x.weight == w) := by
  induction l with
  | nil => rfl
  | cons a t ih =>
    rw [sortAPIsByWeight, orderedInsert_filter]
    by_cases hw : a.weight = w <;> simp [List.filter_cons, hw, ih]

theorem map_getD_range {α : Type} (d : α) (l : List α) :
    (List.range l.length).map (fun i => l.getD i d) = l := by
  induction l with
  | nil => rfl
  | cons a t ih =>
    rw [List.length_cons, List.range_succ_eq_map]
    simp only [List.map_cons, List.map_map]
    have hc : ((fun i => (a :: t).getD i d) ∘ Nat.succ) = (fun i => t.getD i d) :=
      funext fun i => rfl
    rw [hc, ih]
    rfl

theorem visit_no_dep (apis : List APITest) (n2i : String → Option Nat)
    (fuel idx : Nat) (st : TopoState)
    (hnv : idx ∉ st.visited) (hnv2 : idx ∉ st.visiting)
    (hdep : (apis.getD idx default).dependsOn = "") :
    visit apis n2i (fuel + 1) idx st =
      (true, ⟨idx :: st.visited, st.visiting, st.result ++ [apis.getD idx default]⟩) := by
  rw [visit]
  rw [if_neg hnv, if_neg hnv2]
  dsimp only
  rw [if_neg (by rw [hdep]; simp)]
  dsimp only
  rw [List.erase_cons_head]

theorem topoLoop_no_deps (apis : List APITest) (n2i : String → Option Nat)
    (hdep : ∀ a ∈ apis, a.dependsOn = "") :
    ∀ (idxs : List Nat) (st : TopoState),
      st.visiting = [] →
      (∀ i ∈ idxs, i < apis.length) →
      (∀ i ∈ idxs, i ∉ st.visited) →
      idxs.Nodup →
      topoLoop apis n2i idxs st =
        some ⟨idxs.reverse ++ st.visited, [],
          st.result ++ idxs.map (fun i => apis.getD i default)⟩ := by
  intro idxs
  induction idxs with
  | nil =>
    intro st h1 h2 h3 h4
    obtain ⟨v, g, r⟩ := st
    simp only at h1
    subst h1
    simp [topoLoop]
  | cons i rest ih =>
    intro st h1 h2 h3 h4
    rw [topoLoop]
    rw [if_neg (h3 i (by simp))]
    have hlt : i < apis.length := h2 i (by simp)
    have hmem : apis.getD i default ∈ apis := by
      rw [List.getD_eq_getElem?_getD, List.getElem?_eq_getElem hlt]
      exact List.getElem_mem hlt
    have hv := visit_no_dep apis n2i apis.length i st (h3 i (by simp))
      (by rw [h1]; exact List.not_mem_nil i) (hdep _ hmem)
    rw [hv]
    dsimp only
    rw [List.nodup_cons] at h4
    rw [ih ⟨i :: st.visited, st.visiting, st.result ++ [apis.getD i default]⟩
      h1 (fun j hj => h2 j (by simp [hj]))
      (fun j hj => by
        simp only [List.mem_cons]
        push_neg
        exact ⟨fun hji => h4.1 (hji ▸ hj), h3 j (by simp [hj])⟩)
      h4.2]
    simp

theorem resolveExecutionOrder_no_deps (apis : List APITest)
    (hdep : ∀ a ∈ apis, a.dependsOn = "") :
    resolveExecutionOrder apis = apis := by
  unfold resolveExecutionOrder
  rw [topoLoop_no_deps apis _ hdep (List.range apis.length) ⟨[], [], []⟩ rfl
    (fun i hi => List.mem_range.1 hi) (fun i _ => List.not_mem_nil i)
    (List.nodup_range _)]
  dsimp only
  rw [map_getD_range]
  simp

/-- C9 (confirmed): for a configuration in which no test declares a
dependency, the sequential execution order is a permutation of the declared
tests, is sorted by weight descending, and is stable: for every weight the
subsequence of tests of that weight equals the declared subsequence. -/
theorem C9_weight_stable_sort (cfg : TestConfig)
    (hdep : ∀ a ∈ cfg.apis, a.dependsOn = "") :
    (executionOrder cfg).Perm cfg.apis ∧
    (executionOrder cfg).Pairwise (fun a b => b.weight ≤ a.weight) ∧
    (∀ w : Int, (executionOrder cfg).filter (fun a => a.weight == w) =
      cfg.apis.filter (fun a => a.weight == w)) := by
  have hdep2 : ∀ a ∈ sortAPIsByWeight cfg.apis, a.dependsOn = "" :=
    fun a ha => hdep a ((sortAPIsByWeight_perm cfg.apis).subset ha)
  unfold executionOrder
  rw [resolveExecutionOrder_no_deps _ hdep2]
  exact ⟨sortAPIsByWeight_perm _, sortAPIsByWeight_sorted _,
    fun w => sortAPIsByWeight_filter _ w⟩

/-- A three-test dependency-free configuration with a weight tie. -/
def fxSortCfg : TestConfig :=
  { baseURL := "", version := "", headers := [],
    apis := [fxTest "a" "" 1, fxTest "b" "" 2, fxTest "c" "" 1] }

/-- Witness for C9: the theorem instantiated on the concrete dependency-free
configuration, together with the fully evaluated order (b first by weight,
the tied a and c in declaration order). -/
theorem C9_witness :
    ((executionOrder fxSortCfg).Perm fxSortCfg.apis ∧
      (executionOrder fxSortCfg).Pairwise (fun a b => b.weight ≤ a.weight) ∧
      (∀ w : Int, (executionOrder fxSortCfg).filter (fun a => a.weight == w) =
        fxSortCfg.apis.filter (fun a => a.weight == w))) ∧
    (executionOrder fxSortCfg).map (fun a => a.name) = ["b", "a", "c"] := by
  constructor
  · exact C9_weight_stable_sort fxSortCfg (by
      intro a ha
      simp only [fxSortCfg, List.mem_cons] at ha
      rcases ha with rfl | rfl | rfl | h
      · rfl
      · rfl
      · rfl
      · cases h)
  · rfl

end ApiAutoTest

namespace ApiAutoTest

/-! ### Claim C10: report invariants of sequential execution -/

theorem buildNameToIndex_lt (apis : List APITest) (name : String) :
    ∀ d, buildNameToIndex apis name = some d → d < apis.length := by
  unfold buildNameToIndex
  suffices h : ∀ (l : List Nat) (acc : Option Nat),
      (∀ j, acc = some j → j < apis.length) →
      (∀ i ∈ l, i < apis.length) →
      ∀ d, l.foldl (fun acc i =>
          if (apis.getD i default).name = name then some i else acc) acc = some d →
        d < apis.length by
    intro d hd
    exact h (List.range apis.length) none (by simp)
      (fun i hi => List.mem_range.1 hi) d hd
  intro l
  induction l with
  | nil =>
    intro acc hacc _ d hd
    exact hacc d hd
  | cons i rest ih =>
    intro acc hacc hl d hd
    rw [List.foldl_cons] at hd
    refine ih _ ?_ (fun j hj => hl j (by simp [hj])) d hd
    intro j hj
    split at hj
    · cases hj
      exact hl i (by simp)
    · exact hacc j hj

/-- The invariant of the topological walk used for the permutation claim:
visited indices are distinct and in range, the collected result is a
permutation of the tests at the visited indices, and no index is both in
flight and finished. -/
def PermInv (apis : List APITest) (st : TopoState) : Prop :=
  st.visited.Nodup ∧ (∀ i ∈ st.visited, i < apis.length) ∧
  st.result.Perm (st.visited.map (fun i => apis.getD i default)) ∧
  (∀ i ∈ st.visiting, i ∉ st.visited)

theorem visit_perm (apis : List APITest) :
    ∀ (fuel idx : Nat) (st : TopoState), idx < apis.length → PermInv apis st →
      ∀ st2, visit apis (buildNameToIndex apis) fuel idx st = (true, st2) →
        PermInv apis st2 ∧ st2.visiting = st.visiting ∧
        st.visited ⊆ st2.visited ∧ idx ∈ st2.visited := by
  intro fuel
  induction fuel with
  | zero =>
    intro idx st _ _ st2 h
    rw [visit] at h
    cases h
  | succ fuel ih =>
    intro idx st hlt hinv st2 h
    rw [visit] at h
    by_cases hv : idx ∈ st.visited
    · rw [if_pos hv] at h
      cases h
      exact ⟨hinv, rfl, fun a ha => ha, hv⟩
    · rw [if_neg hv] at h
      by_cases hg : idx ∈ st.visiting
      · rw [if_pos hg] at h
        cases h
      · rw [if_neg hg] at h
        dsimp only at h
        have hinv1 : PermInv apis { st with visiting := idx :: st.visiting } := by
          refine ⟨hinv.1, hinv.2.1, hinv.2.2.1, ?_⟩
          intro i hi
          rcases List.mem_cons.1 hi with rfl | hi2
          · exact hv
          · exact hinv.2.2.2 i hi2
        by_cases hdep : (apis.getD idx default).dependsOn ≠ ""
        · rw [if_pos hdep] at h
          match hn : buildNameToIndex apis (apis.getD idx default).dependsOn with
          | some depIdx =>
            rw [hn] at h
            dsimp only at h
            match hrec : visit apis (buildNameToIndex apis) fuel depIdx
                { st with visiting := idx :: st.visiting } with
            | (true, stmid) =>
              rw [hrec] at h
              dsimp only at h
              obtain ⟨inv2, hvg2, hsub2, hmem2⟩ :=
                ih depIdx _ (buildNameToIndex_lt apis _ depIdx hn) hinv1 stmid hrec
              cases h
              refine ⟨⟨?_, ?_, ?_, ?_⟩, ?_, ?_, by simp⟩
              · rw [List.nodup_cons]
                exact ⟨inv2.2.2.2 idx (by rw [hvg2]; simp), inv2.1⟩
              · intro i hi
                rcases List.mem_cons.1 hi with rfl | hi2
                · exact hlt
                · exact inv2.2.1 i hi2
              · refine (inv2.2.2.1.append_right _).trans ?_
                rw [List.map_cons]
                exact List.perm_append_singleton _ _
              · intro i hi
                rw [hvg2, List.erase_cons_head] at hi
                rw [List.mem_cons]
                push_neg
                constructor
                · intro heq
                  exact hg (heq ▸ hi)
                · exact inv2.2.2.2 i (by rw [hvg2]; simp [hi])
              · rw [hvg2, List.erase_cons_head]
              · intro a ha
                exact List.mem_cons_of_mem _ (hsub2 (by simp [ha]))
            | (false, stmid) =>
              rw [hrec] at h
              dsimp only at h
              cases h
          | none =>
            rw [hn] at h
            dsimp only at h
            cases h
            refine ⟨⟨?_, ?_, ?_, ?_⟩, ?_, ?_, by simp⟩
            · rw [List.nodup_cons]
              exact ⟨hv, hinv.1⟩
            · intro i hi
              rcases List.mem_cons.1 hi with rfl | hi2
              · exact hlt
              · exact hinv.2.1 i hi2
            · refine (hinv.2.2.1.append_right _).trans ?_
              rw [List.map_cons]
              exact List.perm_append_singleton _ _
            · intro i hi
              rw [List.erase_cons_head] at hi
              rw [List.mem_cons]
              push_neg
              exact ⟨fun heq => hg (heq ▸ hi), hinv.2.2.2 i hi⟩
            · rw [List.erase_cons_head]
            · exact fun a ha => List.mem_cons_of_mem _ ha
        · rw [if_neg hdep] at h
          dsimp only at h
          cases h
          refine ⟨⟨?_, ?_, ?_, ?_⟩, ?_, ?_, by simp⟩
          · rw [List.nodup_cons]
            exact ⟨hv, hinv.1⟩
          · intro i hi
            rcases List.mem_cons.1 hi with rfl | hi2
            · exact hlt
            · exact hinv.2.1 i hi2
          · refine (hinv.2.2.1.append_right _).trans ?_
            rw [List.map_cons]
            exact List.perm_append_singleton _ _
          · intro i hi
            rw [List.erase_cons_head] at hi
            rw [List.mem_cons]
            push_neg
            exact ⟨fun heq => hg (heq ▸ hi), hinv.2.2.2 i hi⟩
          · rw [List.erase_cons_head]
          · exact fun a ha => List.mem_cons_of_mem _ ha

end ApiAutoTest

namespace ApiAutoTest

theorem topoLoop_perm (apis : List APITest) :
    ∀ (idxs : List Nat) (st : TopoState),
      PermInv apis st → (∀ i ∈ idxs, i < apis.length) →
      ∀ st2, topoLoop apis (buildNameToIndex apis) idxs st = some st2 →
        PermInv apis st2 ∧ st.visited ⊆ st2.visited ∧
        (∀ i ∈ idxs, i ∈ st2.visited) := by
  intro idxs
  induction idxs with
  | nil =>
    intro st hinv _ st2 h
    rw [topoLoop] at h
    cases h
    exact ⟨hinv, fun a ha => ha, by simp⟩
  | cons i rest ih =>
    intro st hinv hbound st2 h
    rw [topoLoop] at h
    by_cases hvis : i ∈ st.visited
    · rw [if_pos hvis] at h
      obtain ⟨h1, h2, h3⟩ := ih st hinv (fun j hj => hbound j (by simp [hj])) st2 h
      refine ⟨h1, h2, ?_⟩
      intro j hj
      rcases List.mem_cons.1 hj with rfl | hj2
      · exact h2 hvis
      · exact h3 j hj2
    · rw [if_neg hvis] at h
      match hv : visit apis (buildNameToIndex apis) (apis.length + 1) i st with
      | (true, stmid) =>
        rw [hv] at h
        dsimp only at h
        obtain ⟨inv2, _, hsub2, hmem2⟩ :=
          visit_perm apis (apis.length + 1) i st (hbound i (by simp)) hinv stmid hv
        obtain ⟨h1, h2, h3⟩ := ih stmid inv2 (fun j hj => hbound j (by simp [hj])) st2 h
        refine ⟨h1, fun a ha => h2 (hsub2 ha), ?_⟩
        intro j hj
        rcases List.mem_cons.1 hj with rfl | hj2
        · exact h2 hmem2
        · exact h3 j hj2
      | (false, stmid) =>
        rw [hv] at h
        dsimp only at h
        cases h

theorem resolveExecutionOrder_perm (apis : List APITest) :
    (resolveExecutionOrder apis).Perm apis := by
  unfold resolveExecutionOrder
  match htl : topoLoop apis (buildNameToIndex apis) (List.range apis.length)
      ⟨[], [], []⟩ with
  | none => exact List.Perm.refl _
  | some st2 =>
    obtain ⟨inv, _, hall⟩ := topoLoop_perm apis (List.range apis.length)
      ⟨[], [], []⟩ ⟨List.nodup_nil, by simp, by simp, by simp⟩
      (fun i hi => List.mem_range.1 hi) st2 htl
    have hvd : st2.visited.Perm (List.range apis.length) := by
      refine (List.Nodup.subperm inv.1 ?_).antisymm
        (List.Nodup.subperm (List.nodup_range _) ?_)
      · intro i hi
        exact List.mem_range.2 (inv.2.1 i hi)
      · intro i hi
        exact hall i hi
    refine inv.2.2.1.trans ((hvd.map _).trans ?_)
    rw [map_getD_range]

/-- The execution order of a configuration is always a permutation of its
declared tests (with or without cycles: the fallback returns the input, and
a completed walk visits every index exactly once). -/
theorem executionOrder_perm (cfg : TestConfig) :
    (executionOrder cfg).Perm cfg.apis :=
  (resolveExecutionOrder_perm _).trans (sortAPIsByWeight_perm _)

end ApiAutoTest

namespace ApiAutoTest

theorem runAttempts_name (doFn : DoFn) (validate : ValidateFn) (t : APITest) :
    ∀ remaining attempt res lastErr,
      (runAttempts doFn validate t remaining attempt res lastErr).name = res.name := by
  intro remaining
  induction remaining with
  | zero =>
    intro attempt res lastErr
    rw [runAttempts]
  | succ rem ih =>
    intro attempt res lastErr
    rw [runAttempts]
    dsimp only
    cases hdo : doFn t.request attempt with
    | error e =>
      rw [ih]
      split <;> rfl
    | ok resp =>
      dsimp only
      split
      · split <;> rfl
      · rw [ih]
        split <;> rfl

theorem executeAPITest_name (doFn : DoFn) (validate : ValidateFn) (t : APITest) :
    (executeAPITest doFn validate t).name = t.name := by
  unfold executeAPITest
  rw [runAttempts_name]

theorem replaceVariables_name (results : Store) (randomGen : String → String)
    (t : APITest) : (replaceVariables results randomGen t).name = t.name := rfl

theorem execStep_report (doFn : DoFn) (validate : ValidateFn)
    (randomGen : String → String) (cfgAPIs : List APITest)
    (st : Store × TestReport) (t : APITest) :
    (execStep doFn validate randomGen cfgAPIs st t).2.results.map (fun r => r.name) =
      st.2.results.map (fun r => r.name) ++ [t.name] ∧
    (execStep doFn validate randomGen cfgAPIs st t).2.totalTests =
      st.2.totalTests + 1 ∧
    (execStep doFn validate randomGen cfgAPIs st t).2.passedTests +
      (execStep doFn validate randomGen cfgAPIs st t).2.failedTests +
      (execStep doFn validate randomGen cfgAPIs st t).2.skippedTests =
      st.2.passedTests + st.2.failedTests + st.2.skippedTests + 1 := by
  unfold execStep
  by_cases hdep : t.dependsOn ≠ ""
  · rw [if_pos hdep]
    match hge : getResult st.1 t.dependsOn with
    | none =>
      dsimp only
      unfold recordSkip
      refine ⟨by simp [skippedResult], rfl, by dsimp only; omega⟩
    | some depResult =>
      dsimp only
      by_cases hfail : !depResult.passed || depResult.skipped
      · rw [if_pos hfail]
        unfold recordSkip
        refine ⟨by simp [skippedResult], rfl, by dsimp only; omega⟩
      · rw [if_neg hfail]
        unfold execRun
        refine ⟨by simp [executeAPITest_name, replaceVariables_name], rfl, ?_⟩
        dsimp only
        by_cases hp : (executeAPITest doFn validate
            (replaceVariables st.1 randomGen t)).passed <;>
          simp [hp] <;> omega
  · rw [if_neg hdep]
    unfold execRun
    refine ⟨by simp [executeAPITest_name, replaceVariables_name], rfl, ?_⟩
    dsimp only
    by_cases hp : (executeAPITest doFn validate
        (replaceVariables st.1 randomGen t)).passed <;>
      simp [hp] <;> omega

theorem execFold_report (doFn : DoFn) (validate : ValidateFn)
    (randomGen : String → String) (cfgAPIs : List APITest) :
    ∀ (order : List APITest) (st : Store × TestReport),
      let final := order.foldl (execStep doFn validate randomGen cfgAPIs) st
      final.2.results.map (fun r => r.name) =
        st.2.results.map (fun r => r.name) ++ order.map (fun a => a.name) ∧
      final.2.totalTests = st.2.totalTests + order.length ∧
      final.2.passedTests + final.2.failedTests + final.2.skippedTests =
        st.2.passedTests + st.2.failedTests + st.2.skippedTests + order.length := by
  intro order
  induction order with
  | nil =>
    intro st
    refine ⟨by simp, rfl, rfl⟩
  | cons t ts ih =>
    intro st
    obtain ⟨hres, htot, hsum⟩ := execStep_report doFn validate randomGen cfgAPIs st t
    obtain ⟨ih1, ih2, ih3⟩ := ih (execStep doFn validate randomGen cfgAPIs st t)
    rw [List.foldl_cons]
    refine ⟨?_, ?_, ?_⟩
    · rw [ih1, hres]
      simp
    · rw [ih2, htot]
      simp
      omega
    · rw [ih3, hsum]
      simp
      omega

/-- C10 (confirmed): for a configuration with distinct test names, the
resolved execution order is a permutation of the declared tests (cycle or
not), the sequential report holds exactly one result per declared test (its
result names are a permutation of the declared names), and the total count
equals passed plus failed plus skipped and equals the number of results. -/
theorem C10_execute_report_invariants (doFn : DoFn) (validate : ValidateFn)
    (randomGen : String → String) (cfg : TestConfig)
    (hnames : (cfg.apis.map (fun a => a.name)).Nodup) :
    (executionOrder cfg).Perm cfg.apis ∧
    ((Execute doFn validate randomGen cfg).results.map (fun r => r.name)).Perm
      (cfg.apis.map (fun a => a.name)) ∧
    (Execute doFn validate randomGen cfg).totalTests =
      (Execute doFn validate randomGen cfg).passedTests +
      (Execute doFn validate randomGen cfg).failedTests +
      (Execute doFn validate randomGen cfg).skippedTests ∧
    (Execute doFn validate randomGen cfg).totalTests =
      (Execute doFn validate randomGen cfg).results.length := by
  obtain ⟨h1, h2, h3⟩ := execFold_report doFn validate randomGen cfg.apis
    (executionOrder cfg) ([], emptyReport cfg)
  have hx : (Execute doFn validate randomGen cfg) =
      ((executionOrder cfg).foldl
        (execStep doFn validate randomGen cfg.apis) ([], emptyReport cfg)).2 := rfl
  refine ⟨executionOrder_perm cfg, ?_, ?_, ?_⟩
  · rw [hx, h1]
    simp only [emptyReport, List.map_nil, List.nil_append]
    exact (executionOrder_perm cfg).map _
  · rw [hx, h2, h3]
    simp [emptyReport]
  · rw [hx, h2]
    have hlen : ((executionOrder cfg).foldl
        (execStep doFn validate randomGen cfg.apis)
        ([], emptyReport cfg)).2.results.length = (executionOrder cfg).length := by
      have := congrArg List.length h1
      simpa [emptyReport] using this
    rw [hlen]
    simp [emptyReport]

/-- Witness for C10: the invariants instantiated on the concrete cyclic
configuration (whose names are distinct), with the counter values evaluated. -/
theorem C10_witness :
    ((executionOrder cycleCfg).Perm cycleCfg.apis ∧
      ((Execute c2DoFn c2Validate (fun _ => "") cycleCfg).results.map
        (fun r => r.name)).Perm (cycleCfg.apis.map (fun a => a.name)) ∧
      (Execute c2DoFn c2Validate (fun _ => "") cycleCfg).totalTests =
        (Execute c2DoFn c2Validate (fun _ => "") cycleCfg).passedTests +
        (Execute c2DoFn c2Validate (fun _ => "") cycleCfg).failedTests +
        (Execute c2DoFn c2Validate (fun _ => "") cycleCfg).skippedTests ∧
      (Execute c2DoFn c2Validate (fun _ => "") cycleCfg).totalTests =
        (Execute c2DoFn c2Validate (fun _ => "") cycleCfg).results.length) ∧
    (Execute c2DoFn c2Validate (fun _ => "") cycleCfg).totalTests = 3 := by
  constructor
  · exact C10_execute_report_invariants c2DoFn c2Validate (fun _ => "") cycleCfg
      (by decide)
  · rfl

end ApiAutoTest

namespace ApiAutoTest

/-! ### Claim C1: dependency ordering of the resolved order

The dependency structure of a test list at the index level: each index has at
most one outgoing edge, to the index its declared dependency name resolves to
through the nameToIndex map. -/

/-- The dependency edge of the index graph walked by resolveExecutionOrder. -/
def depIdx (apis : List APITest) (i : Nat) : Option Nat :=
  if (apis.getD i default).dependsOn ≠ "" then
    buildNameToIndex apis (apis.getD i default).dependsOn
  else none

/-- Iterate the dependency edge: the chain of (transitive) dependencies. -/
def iterDep (apis : List APITest) : Nat → Nat → Option Nat
  | 0, i => some i
  | k + 1, i =>
    match depIdx apis i with
    | some j => iterDep apis k j
    | none => none

/-- The declared dependency edges form no cycle: no index reaches itself in a
positive number of steps.  Cycles in a finite single-successor graph have
length at most the number of tests, so the bounded form is the full one. -/
def AcyclicDeps (apis : List APITest) : Prop :=
  ∀ i < apis.length, ∀ k < apis.length + 2, 0 < k → iterDep apis k i ≠ some i

theorem depIdx_lt (apis : List APITest) (i j : Nat)
    (h : depIdx apis i = some j) : j < apis.length := by
  unfold depIdx at h
  split at h
  · exact buildNameToIndex_lt apis _ j h
  · cases h

theorem iterDep_lt (apis : List APITest) :
    ∀ (k i v : Nat), i < apis.length → iterDep apis k i = some v →
      v < apis.length := by
  intro k
  induction k with
  | zero =>
    intro i v hi h
    rw [iterDep] at h
    cases h
    exact hi
  | succ k ih =>
    intro i v hi h
    rw [iterDep] at h
    match hd : depIdx apis i with
    | some j =>
      rw [hd] at h
      exact ih j v (depIdx_lt apis i j hd) h
    | none =>
      rw [hd] at h
      cases h

theorem iterDep_add (apis : List APITest) :
    ∀ (a b i : Nat), iterDep apis (a + b) i =
      match iterDep apis a i with
      | some j => iterDep apis b j
      | none => none := by
  intro a
  induction a with
  | zero =>
    intro b i
    simp [iterDep]
  | succ a ih =>
    intro b i
    rw [Nat.succ_add, iterDep, iterDep]
    match hd : depIdx apis i with
    | some j =>
      exact ih b j
    | none => rfl

theorem iterDep_none_mono (apis : List APITest) (a b i : Nat)
    (h : iterDep apis a i = none) : iterDep apis (a + b) i = none := by
  rw [iterDep_add, h]

/-- Under acyclicity every dependency chain dies out within the number of
tests plus one steps (otherwise two of the first length-plus-two chain values
coincide, exhibiting a short cycle). -/
theorem acyclic_terminates (apis : List APITest) (hA : AcyclicDeps apis) :
    ∀ i, i < apis.length → iterDep apis (apis.length + 1) i = none := by
  intro i hi
  by_contra hne
  have hall : ∀ k : Nat, k ≤ apis.length + 1 → iterDep apis k i ≠ none := by
    intro k hk hnone
    refine hne ?_
    have := iterDep_none_mono apis k (apis.length + 1 - k) i hnone
    rwa [Nat.add_sub_cancel' hk] at this
  have hn : 0 < apis.length := by omega
  have key : ∀ (a b : Nat), a < b → b ≤ apis.length + 1 →
      (iterDep apis a i).getD 0 = (iterDep apis b i).getD 0 → False := by
    intro a b hab hb heq
    match ha2 : iterDep apis a i, hb2 : iterDep apis b i with
    | some x, some y =>
      rw [ha2, hb2] at heq
      simp at heq
      subst heq
      have hcomp := iterDep_add apis a (b - a) i
      rw [Nat.add_sub_cancel' (le_of_lt hab), ha2] at hcomp
      dsimp only at hcomp
      rw [hb2] at hcomp
      have hxlt : x < apis.length := iterDep_lt apis a i x hi ha2
      exact hA x hxlt (b - a) (by omega) (by omega) hcomp.symm
    | none, _ => exact hall a (by omega) ha2
    | some _, none => exact hall b hb hb2
  let f : Fin (apis.length + 2) → Fin apis.length := fun k =>
    ⟨(iterDep apis k.val i).getD 0, by
      match hk : iterDep apis k.val i with
      | some v =>
        simp only [hk, Option.getD_some]
        exact iterDep_lt apis k.val i v hi hk
      | none => exact absurd hk (hall k.val (by omega))⟩
  obtain ⟨a, b, hneq, heq⟩ := Fintype.exists_ne_map_eq_of_card_lt f (by simp)
  have hvals : (iterDep apis a.val i).getD 0 = (iterDep apis b.val i).getD 0 := by
    have := congrArg Fin.val heq
    simpa [f] using this
  rcases Nat.lt_or_ge a.val b.val with hab | hab
  · exact key a.val b.val hab (by omega) hvals
  · have hba : b.val < a.val := by
      rcases Nat.lt_or_ge b.val a.val with h2 | h2
      · exact h2
      · exact absurd (Fin.val_injective (by omega)) hneq
    exact key b.val a.val hba (by omega) hvals.symm

end ApiAutoTest

namespace ApiAutoTest

/-- Fuelled length of the dependency chain from an index. -/
def chainLenF (apis : List APITest) : Nat → Nat → Nat
  | 0, _ => 0
  | fuel + 1, i =>
    match depIdx apis i with
    | none => 0
    | some j => chainLenF apis fuel j + 1

/-- The rank of an index: its dependency chain length, computed with enough
fuel to be exact on terminating chains. -/
def chainLen (apis : List APITest) (i : Nat) : Nat :=
  chainLenF apis (apis.length + 1) i

theorem chainLenF_exact (apis : List APITest) :
    ∀ (fuel i : Nat), iterDep apis fuel i = none →
      chainLenF apis fuel i < fuel ∧
      ∀ g, fuel ≤ g → chainLenF apis g i = chainLenF apis fuel i := by
  intro fuel
  induction fuel with
  | zero =>
    intro i h
    rw [iterDep] at h
    cases h
  | succ fuel ih =>
    intro i h
    rw [iterDep] at h
    match hd : depIdx apis i with
    | none =>
      refine ⟨by rw [chainLenF, hd]; dsimp only; omega, ?_⟩
      intro g hg
      match g, hg with
      | g + 1, _ =>
        rw [chainLenF, chainLenF, hd]
    | some j =>
      rw [hd] at h
      dsimp only at h
      obtain ⟨hlt, hconst⟩ := ih j h
      refine ⟨by rw [chainLenF, hd]; dsimp only; omega, ?_⟩
      intro g hg
      match g, hg with
      | g + 1, hg =>
        rw [chainLenF, chainLenF, hd]
        dsimp only
        rw [hconst g (by omega)]

theorem chainLen_lt_of_dep (apis : List APITest) (hA : AcyclicDeps apis)
    (i j : Nat) (hi : i < apis.length) (hd : depIdx apis i = some j) :
    chainLen apis j < chainLen apis i := by
  have hterm := acyclic_terminates apis hA i hi
  have htermj : iterDep apis apis.length j = none := by
    rw [iterDep, hd] at hterm
    exact hterm
  have hconst := (chainLenF_exact apis apis.length j htermj).2 (apis.length + 1) (by omega)
  have hi2 : chainLenF apis (apis.length + 1) i = chainLenF apis apis.length j + 1 := by
    rw [chainLenF, hd]
  unfold chainLen
  rw [hi2, hconst]
  omega

theorem chainLen_le (apis : List APITest) (hA : AcyclicDeps apis)
    (i : Nat) (hi : i < apis.length) : chainLen apis i ≤ apis.length := by
  have hterm := acyclic_terminates apis hA i hi
  have := (chainLenF_exact apis (apis.length + 1) i hterm).1
  unfold chainLen
  omega

theorem buildNameToIndex_name (apis : List APITest) (name : String) :
    ∀ d, buildNameToIndex apis name = some d →
      (apis.getD d default).name = name := by
  unfold buildNameToIndex
  suffices h : ∀ (l : List Nat) (acc : Option Nat),
      (∀ j, acc = some j → (apis.getD j default).name = name) →
      ∀ d, l.foldl (fun acc i =>
          if (apis.getD i default).name = name then some i else acc) acc = some d →
        (apis.getD d default).name = name by
    intro d hd
    exact h (List.range apis.length) none (by simp) d hd
  intro l
  induction l with
  | nil =>
    intro acc hacc d hd
    exact hacc d hd
  | cons i rest ih =>
    intro acc hacc d hd
    rw [List.foldl_cons] at hd
    refine ih _ ?_ d hd
    intro j hj
    split at hj
    · next hname =>
      cases hj
      exact hname
    · exact hacc j hj

theorem buildNameToIndex_isSome (apis : List APITest) (name : String)
    (h : ∃ b ∈ apis, b.name = name) :
    ∃ d, buildNameToIndex apis name = some d := by
  obtain ⟨b, hb, hbname⟩ := h
  obtain ⟨⟨k, hk⟩, hbk⟩ := List.mem_iff_get.1 hb
  have hkd : (apis.getD k default).name = name := by
    rw [List.getD_eq_getElem?_getD, List.getElem?_eq_getElem hk]
    simp only [Option.getD_some]
    rw [show apis[k] = apis.get ⟨k, hk⟩ from rfl, hbk, hbname]
  unfold buildNameToIndex
  suffices hs : ∀ (l : List Nat) (acc : Option Nat),
      (acc ≠ none ∨ ∃ i ∈ l, (apis.getD i default).name = name) →
      l.foldl (fun acc i =>
        if (apis.getD i default).name = name then some i else acc) acc ≠ none by
    have := hs (List.range apis.length) none
      (Or.inr ⟨k, List.mem_range.2 hk, hkd⟩)
    match hfold : (List.range apis.length).foldl (fun acc i =>
        if (apis.getD i default).name = name then some i else acc) none with
    | some d => exact ⟨d, rfl⟩
    | none => exact absurd hfold this
  intro l
  induction l with
  | nil =>
    intro acc hacc
    rcases hacc with h1 | h2
    · exact h1
    · obtain ⟨i, hi, _⟩ := h2
      cases hi
  | cons i rest ih =>
    intro acc hacc
    rw [List.foldl_cons]
    by_cases hmatch : (apis.getD i default).name = name
    · rw [if_pos hmatch]
      exact ih _ (Or.inl (by simp))
    · rw [if_neg hmatch]
      refine ih _ ?_
      rcases hacc with h1 | h2
      · exact Or.inl h1
      · obtain ⟨i2, hi2, hname2⟩ := h2
        rcases List.mem_cons.1 hi2 with rfl | hi3
        · exact absurd hname2 hmatch
        · exact Or.inr ⟨i2, hi3, hname2⟩

end ApiAutoTest

namespace ApiAutoTest

/-- The ordering property of C1: every entry that declares a dependency is
preceded by an entry carrying the dependency's name. -/
def DepClosed (l : List APITest) : Prop :=
  ∀ k (hk : k < l.length), (l.get ⟨k, hk⟩).dependsOn ≠ "" →
    ∃ j, ∃ hj : j < l.length, j < k ∧
      (l.get ⟨j, hj⟩).name = (l.get ⟨k, hk⟩).dependsOn

theorem DepClosed_append (l : List APITest) (a : APITest)
    (hl : DepClosed l)
    (ha : a.dependsOn ≠ "" → ∃ b ∈ l, b.name = a.dependsOn) :
    DepClosed (l ++ [a]) := by
  intro k hk hne
  by_cases hklen : k < l.length
  · have hgetk : (l ++ [a]).get ⟨k, hk⟩ = l.get ⟨k, hklen⟩ := by
      simp [List.getElem_append_left hklen]
    rw [hgetk] at hne ⊢
    obtain ⟨j, hj, hjk, hname⟩ := hl k hklen hne
    have hj2 : j < (l ++ [a]).length := by simp; omega
    refine ⟨j, hj2, hjk, ?_⟩
    have hgetj : (l ++ [a]).get ⟨j, hj2⟩ = l.get ⟨j, hj⟩ := by
      simp [List.getElem_append_left hj]
    rw [hgetj, hname]
  · have hkeq : k = l.length := by
      have := hk
      simp at this
      omega
    subst hkeq
    have hgetk : (l ++ [a]).get ⟨l.length, hk⟩ = a := by simp
    rw [hgetk] at hne ⊢
    obtain ⟨b, hb, hbname⟩ := ha hne
    obtain ⟨⟨j, hj⟩, hbj⟩ := List.mem_iff_get.1 hb
    have hj2 : j < (l ++ [a]).length := by simp; omega
    refine ⟨j, hj2, by omega, ?_⟩
    have hgetj : (l ++ [a]).get ⟨j, hj2⟩ = l.get ⟨j, hj⟩ := by
      simp [List.getElem_append_left hj]
    rw [hgetj, hbj, hbname]

theorem getD_mem_of_lt (apis : List APITest) (i : Nat) (hi : i < apis.length) :
    apis.getD i default ∈ apis := by
  rw [List.getD_eq_getElem?_getD, List.getElem?_eq_getElem hi]
  exact List.getElem_mem hi

/-- The invariant of the topological walk used for the ordering claim. -/
def OrderInv (apis : List APITest) (st : TopoState) : Prop :=
  (∀ i ∈ st.visited, i < apis.length) ∧
  (∀ i ∈ st.visited, ∃ a ∈ st.result, a.name = (apis.getD i default).name) ∧
  DepClosed st.result

theorem visit_order (apis : List APITest) (hA : AcyclicDeps apis)
    (hE : ∀ a ∈ apis, a.dependsOn ≠ "" → ∃ b ∈ apis, b.name = a.dependsOn) :
    ∀ (fuel idx : Nat) (st : TopoState), idx < apis.length →
      chainLen apis idx < fuel →
      OrderInv apis st →
      (∀ j ∈ st.visiting, chainLen apis idx < chainLen apis j) →
      ∃ st2, visit apis (buildNameToIndex apis) fuel idx st = (true, st2) ∧
        OrderInv apis st2 ∧ st2.visiting = st.visiting ∧
        st.visited ⊆ st2.visited ∧ idx ∈ st2.visited := by
  intro fuel
  induction fuel with
  | zero =>
    intro idx st _ hc _ _
    omega
  | succ fuel ih =>
    intro idx st hlt hfuel hinv hrank
    rw [visit]
    by_cases hv : idx ∈ st.visited
    · rw [if_pos hv]
      exact ⟨st, rfl, hinv, rfl, fun a ha => ha, hv⟩
    · rw [if_neg hv]
      have hg : idx ∉ st.visiting := fun hmem => absurd (hrank idx hmem) (by omega)
      rw [if_neg hg]
      dsimp only
      by_cases hdep : (apis.getD idx default).dependsOn ≠ ""
      · rw [if_pos hdep]
        obtain ⟨depIdxV, hn⟩ := buildNameToIndex_isSome apis _
          (hE _ (getD_mem_of_lt apis idx hlt) hdep)
        rw [hn]
        have hdEdge : depIdx apis idx = some depIdxV := by
          unfold depIdx
          rw [if_pos hdep, hn]
        have hdlt : depIdxV < apis.length := depIdx_lt apis idx depIdxV hdEdge
        have hrankd := chainLen_lt_of_dep apis hA idx depIdxV hlt hdEdge
        obtain ⟨st2, hvis, hinv2, hvg2, hsub2, hmem2⟩ :=
          ih depIdxV { st with visiting := idx :: st.visiting } hdlt (by omega) hinv
            (by
              intro j hj
              rcases List.mem_cons.1 hj with rfl | hj2
              · exact hrankd
              · exact lt_trans hrankd (hrank j hj2))
        dsimp only
        rw [hvis]
        dsimp only
        refine ⟨_, rfl, ⟨?_, ?_, ?_⟩, ?_, ?_, by simp⟩
        · intro i hi
          rcases List.mem_cons.1 hi with rfl | hi2
          · exact hlt
          · exact hinv2.1 i hi2
        · intro i hi
          rcases List.mem_cons.1 hi with rfl | hi2
          · exact ⟨apis.getD i default, by simp, rfl⟩
          · obtain ⟨a, ha, hname⟩ := hinv2.2.1 i hi2
            exact ⟨a, by simp [ha], hname⟩
        · refine DepClosed_append _ _ hinv2.2.2 ?_
          intro _
          obtain ⟨a, ha, hname⟩ := hinv2.2.1 depIdxV hmem2
          refine ⟨a, ha, ?_⟩
          rw [hname]
          exact buildNameToIndex_name apis _ depIdxV hn
        · rw [hvg2]
          exact List.erase_cons_head idx st.visiting
        · intro a ha
          exact List.mem_cons_of_mem _ (hsub2 ha)
      · rw [if_neg hdep]
        dsimp only
        refine ⟨_, rfl, ⟨?_, ?_, ?_⟩, ?_, ?_, by simp⟩
        · intro i hi
          rcases List.mem_cons.1 hi with rfl | hi2
          · exact hlt
          · exact hinv.1 i hi2
        · intro i hi
          rcases List.mem_cons.1 hi with rfl | hi2
          · exact ⟨apis.getD i default, by simp, rfl⟩
          · obtain ⟨a, ha, hname⟩ := hinv.2.1 i hi2
            exact ⟨a, by simp [ha], hname⟩
        · refine DepClosed_append _ _ hinv.2.2 ?_
          intro hcon
          exact absurd hcon hdep
        · exact List.erase_cons_head idx st.visiting
        · exact fun a ha => List.mem_cons_of_mem _ ha

end ApiAutoTest

namespace ApiAutoTest

theorem topoLoop_order (apis : List APITest) (hA : AcyclicDeps apis)
    (hE : ∀ a ∈ apis, a.dependsOn ≠ "" → ∃ b ∈ apis, b.name = a.dependsOn) :
    ∀ (idxs : List Nat) (st : TopoState),
      (∀ i ∈ idxs, i < apis.length) →
      OrderInv apis st → st.visiting = [] →
      ∃ st2, topoLoop apis (buildNameToIndex apis) idxs st = some st2 ∧
        OrderInv apis st2 := by
  intro idxs
  induction idxs with
  | nil =>
    intro st _ hinv _
    exact ⟨st, rfl, hinv⟩
  | cons i rest ih =>
    intro st hidx hinv hvg
    rw [topoLoop]
    by_cases hv : i ∈ st.visited
    · rw [if_pos hv]
      exact ih st (fun j hj => hidx j (List.mem_cons_of_mem _ hj)) hinv hvg
    · rw [if_neg hv]
      have hi : i < apis.length := hidx i (List.mem_cons_self _ _)
      have hfuel : chainLen apis i < apis.length + 1 := by
        have := chainLen_le apis hA i hi
        omega
      obtain ⟨st2, hvis, hinv2, hvg2, _, _⟩ :=
        visit_order apis hA hE (apis.length + 1) i st hi hfuel hinv
          (by
            rw [hvg]
            intro j hj
            exact absurd hj (List.not_mem_nil j))
      rw [hvis]
      dsimp only
      exact ih st2 (fun j hj => hidx j (List.mem_cons_of_mem _ hj)) hinv2
        (by rw [hvg2, hvg])

/-- C1: for every set of test definitions whose depends_on edges form no
cycle, each declared dependency naming an existing test, the execution order
returned by resolveExecutionOrder places every test that declares a
dependency strictly after a test carrying the name it depends on. -/
theorem C1_dependency_order (apis : List APITest)
    (hA : AcyclicDeps apis)
    (hE : ∀ a ∈ apis, a.dependsOn ≠ "" → ∃ b ∈ apis, b.name = a.dependsOn) :
    DepClosed (resolveExecutionOrder apis) := by
  obtain ⟨st2, hloop, hinv2⟩ :=
    topoLoop_order apis hA hE (List.range apis.length) ⟨[], [], []⟩
      (by
        intro i hi
        exact List.mem_range.1 hi)
      (by
        refine ⟨?_, ?_, ?_⟩
        · intro i hi
          exact absurd hi (List.not_mem_nil i)
        · intro i hi
          exact absurd hi (List.not_mem_nil i)
        · intro k hk
          simp at hk)
      rfl
  unfold resolveExecutionOrder
  rw [hloop]
  exact hinv2.2.2

/-- Fixture for the C1 witness: B has no dependency, A depends on B. -/
def apisW : List APITest := [fxTest "A" "B" 0, fxTest "B" "" 0]

theorem C1_witness :
    (AcyclicDeps apisW ∧
      ∀ a ∈ apisW, a.dependsOn ≠ "" → ∃ b ∈ apisW, b.name = a.dependsOn) ∧
    DepClosed (resolveExecutionOrder apisW) :=
  ⟨⟨by unfold AcyclicDeps; decide, by decide⟩,
    C1_dependency_order apisW (by unfold AcyclicDeps; decide) (by decide)⟩

end ApiAutoTest
